import Mathlib

/-!
# naukri-job-alert: the run orchestrator (`index.js`)

A shallow embedding of `main` of `index.js`: the parsing of `SEARCH_URL`, the
sequential loop over the search targets with in-run de-duplication, the
construction of the consolidated message, the single notification and the
persistence step that follows it; and of `fetchJobs` of
`src/naukriClient.js`.

Conventions of the embedding.

* JavaScript strings are Lean `String`s; `split` and `trim` work on the
  underlying character lists.
* A value `string | null` is an `Option String`.
* A JavaScript `Set` of strings is a duplicate-free insertion-ordered list
  (`setAdd`, `setHas`, `newSet`).
* A JavaScript number is a rational; an arithmetic operation on numbers
  that are not integers rounds its exact result to the nearest double
  (`roundDouble`).
* Objects compared by reference (`Array.prototype.indexOf`) carry the
  address they were allocated at (`Obj`).
* The collaborators (`init`, `getSeenJobs`, `fetchJobs`, `Math.random`,
  `Date`, `sendTelegramMessage`, `addSeenJobs`) are oracles of a `World`;
  every awaited call is recorded in a trace of `Event`s together with its
  outcome.  Calls of `logger` have no influence on control flow and are not
  recorded.
-/

namespace NaukriJobAlert

/-! ## JavaScript strings -/

/-- White space and line terminators, the code points stripped by
`String.prototype.trim`. -/
def isJsWhiteSpace (c : Char) : Bool :=
  let n := c.toNat
  n == 0x9 || n == 0xA || n == 0xB || n == 0xC || n == 0xD || n == 0x20 ||
  n == 0xA0 || n == 0x1680 || (0x2000 ≤ n && n ≤ 0x200A) || n == 0x2028 ||
  n == 0x2029 || n == 0x202F || n == 0x205F || n == 0x3000 || n == 0xFEFF

/-- Characters of `s.trim()`. -/
def trimChars (cs : List Char) : List Char :=
  ((cs.dropWhile isJsWhiteSpace).reverse.dropWhile isJsWhiteSpace).reverse

/-- JavaScript `s.trim()`. -/
def jsTrim (s : String) : String := ⟨trimChars s.data⟩

/-- Pieces of a character list cut at every occurrence of `sep`; there is
always at least one piece. -/
def splitChars (sep : Char) : List Char → List (List Char)
  | [] => [[]]
  | c :: cs =>
    if c = sep then [] :: splitChars sep cs
    else
      match splitChars sep cs with
      | [] => [[c]]
      | w :: ws => (c :: w) :: ws

/-- JavaScript `s.split(sep)` for a one-character separator. -/
def jsSplit (sep : Char) (s : String) : List String :=
  (splitChars sep s.data).map String.mk

/-- JavaScript truthiness of a `string | null | undefined` value. -/
def truthy : Option String → Bool
  | some s => s != ""
  | none => false

/-- JavaScript `v || d` for a `string | null` value `v` and a string `d`. -/
def orElse (v : Option String) (d : String) : String :=
  match v with
  | some s => if s = "" then d else s
  | none => d

/-! ## Data -/

/-- One parsed search target: `{ url, place }`. -/
structure SearchConfig where
  url : String
  place : Option String
deriving DecidableEq, Repr

/-- A heap object: its address and its content.  `indexOf` compares
addresses. -/
structure Obj (α : Type) where
  ref : Nat
  val : α
deriving DecidableEq, Repr

/-- A posting as returned by `fetchJobs`: `{ title, url }`. -/
structure FetchedJob where
  title : String
  url : String
deriving DecidableEq, Repr

/-- A posting after `j.place = config.place`. -/
structure Job where
  title : String
  url : String
  place : Option String
deriving DecidableEq, Repr

/-- A row returned by `getSeenJobs`; only `url` is read. -/
structure SeenRecord where
  url : String
deriving DecidableEq, Repr

/-- An element of `placeResults`: `{ place, jobs }` or
`{ place, error: true }`. -/
inductive PlaceResult where
  | ok (place : String) (jobs : List Job)
  | error (place : String)
deriving DecidableEq, Repr

/-- Awaited calls of collaborators, in the order they are made, with
whether the call resolved. -/
inductive Event where
  | init (resolved : Bool)
  | getSeenJobs (resolved : Bool)
  | fetchJobs (url : String) (resolved : Bool)
  | setTimeout (delay : Int)
  | sendTelegramMessage (token chatId text : String) (resolved : Bool)
  | addSeenJobs (jobs : List Job) (resolved : Bool)
  | processExit (code : Nat)
deriving DecidableEq, Repr

/-- How the promise of `main` settles, or the process exit it performs. -/
inductive Completion where
  | returned
  | exited (code : Nat)
  | rejected (message : String)
deriving DecidableEq, Repr

/-- Observable outcome of one invocation. -/
structure Run where
  trace : List Event
  completion : Completion
deriving DecidableEq, Repr

/-- The variables the `for` loop of `main` updates. -/
structure LoopState where
  seenUrls : List String
  allNewJobs : List Job
  placeResults : List PlaceResult
  trace : List Event
deriving DecidableEq, Repr

/-- The environment variables read at module load. -/
structure Env where
  SEARCH_URL : Option String
  TELEGRAM_BOT_TOKEN : Option String
  TELEGRAM_CHAT_ID : Option String
deriving DecidableEq, Repr

/-- The collaborators of one invocation.  `fetchJobs i url` is the outcome
of the fetch made in iteration `i`, `random i` the value `Math.random()`
returns in iteration `i`, `now` the localized time stamp. -/
structure World where
  init : Except String Unit
  getSeenJobs : Except String (List SeenRecord)
  fetchJobs : Nat → String → Except String (List FetchedJob)
  random : Nat → ℚ
  now : String
  sendTelegramMessage : String → String → String → Except String Unit
  addSeenJobs : List Job → Except String Unit

/-- Whether an awaited call resolved. -/
def resolved {ε α : Type} : Except ε α → Bool
  | .ok _ => true
  | .error _ => false

/-! ## Sets of urls -/

/-- JavaScript `set.has(u)`. -/
def setHas (s : List String) (u : String) : Bool := decide (u ∈ s)

/-- JavaScript `set.add(u)`. -/
def setAdd (s : List String) (u : String) : List String :=
  if u ∈ s then s else s ++ [u]

/-- JavaScript `new Set(us)`. -/
def newSet (us : List String) : List String := us.foldl setAdd []

/-! ## Parsing of `SEARCH_URL` -/

/-- The built-in search url used when the environment gives none. -/
def defaultSearchUrl : String :=
  "https://www.naukri.com/react-dot-js-nextjs-jobs-in-delhi-ncr?k=react.js%2C%20nextjs&l=delhi%20%2F%20ncr%2C%20hyderabad%2C%20pune&nignbevent_src=jobsearchDeskGNB&jobAge=1&experience=4&ctcFilter=10to15&ctcFilter=15to25&ctcFilter=6to10&ctcFilter=25to50"

/-- The constant `SEARCH_URL`: `process.env.SEARCH_URL || "https://..."`. -/
def SEARCH_URL (env : Env) : String := orElse env.SEARCH_URL defaultSearchUrl

/-- The arrow function mapped over the entries:
`const [url, place] = entry.split('|')` followed by
`{ url: url.trim(), place: place ? place.trim() : null }`.
The first branch is never taken, `split` returns at least one piece. -/
def parseEntry (entry : String) : SearchConfig :=
  match jsSplit '|' entry with
  | [] => { url := "", place := none }
  | [url] => { url := jsTrim url, place := none }
  | url :: place :: _ =>
    { url := jsTrim url, place := if place != "" then some (jsTrim place) else none }

/-- The contents of `searchConfigs`:
`SEARCH_URL.split(',').map(entry => ...)`. -/
def searchConfigs (searchUrl : String) : List SearchConfig :=
  (jsSplit ',' searchUrl).map parseEntry

/-- The objects created by the `map`, each at a fresh address. -/
def allocate {α : Type} (vals : List α) : List (Obj α) :=
  vals.enum.map fun p => { ref := p.1, val := p.2 }

/-! ## The loop over the targets -/

/-- Search of `o` by reference from position `i` on. -/
def indexOfFrom {α : Type} (o : Obj α) : List (Obj α) → Nat → Int
  | [], _ => -1
  | x :: xs, i => if x.ref = o.ref then (i : Int) else indexOfFrom o xs (i + 1)

/-- JavaScript `arr.indexOf(o)` for an object `o`. -/
def indexOf {α : Type} (arr : List (Obj α)) (o : Obj α) : Int :=
  indexOfFrom o arr 0

/-- Rounding of a rational to the nearest integer, ties to the even one. -/
def roundHalfEven (x : ℚ) : Int :=
  if x - Rat.floor x < 1 / 2 then Rat.floor x
  else if 1 / 2 < x - Rat.floor x then Rat.floor x + 1
  else if Rat.floor x % 2 = 0 then Rat.floor x
  else Rat.floor x + 1

/-- The result of a JavaScript arithmetic operation whose exact value is
`x`: the IEEE 754 binary64 value nearest to `x`, ties to even.  With
`2 ^ e ≤ |x| < 2 ^ (e + 1)` and `e` not below `-1022` (where the subnormal
range starts), it is the multiple of `2 ^ (e - 52)` nearest to `x`.
Overflow to infinity, from `2 ^ 1024` on, is not represented. -/
def roundDouble (x : ℚ) : ℚ :=
  if x = 0 then 0
  else
    roundHalfEven (x / 2 ^ (max (Int.log 2 |x|) (-1022) - 52))
      * 2 ^ (max (Int.log 2 |x|) (-1022) - 52)

/-- The pacing delay `Math.floor(Math.random() * (15000 - 5000 + 1) + 5000)`
for the value `r` of `Math.random()`: the product and the sum are rounded
as JavaScript numbers are; `15000 - 5000 + 1` is exact. -/
def randomDelay (r : ℚ) : Int :=
  Rat.floor (roundDouble (roundDouble (r * (15000 - 5000 + 1)) + 5000))

/-- The part of one iteration inside `try { ... } catch { ... }`. -/
def fetchStep (st : LoopState) (config : SearchConfig)
    (fetched : Except String (List FetchedJob)) : LoopState :=
  match fetched with
  | .ok jobs =>
    let newJobs : List Job :=
      (jobs.filter fun j => !setHas st.seenUrls j.url).map fun j =>
        { title := j.title, url := j.url, place := config.place }
    { seenUrls := newJobs.foldl (fun s j => setAdd s j.url) st.seenUrls
      allNewJobs := st.allNewJobs ++ newJobs
      placeResults := st.placeResults ++ [PlaceResult.ok (orElse config.place "Naukri") newJobs]
      trace := st.trace ++ [Event.fetchJobs config.url true] }
  | .error _ =>
    { st with
      placeResults := st.placeResults ++ [PlaceResult.error (orElse config.place "Unknown")]
      trace := st.trace ++ [Event.fetchJobs config.url false] }

/-- One iteration of `for (const config of searchConfigs)`: the fetch and
its bookkeeping, then the pacing delay unless `config` is the last element
of `searchConfigs`. -/
def loopBody (configs : List (Obj SearchConfig)) (st : LoopState)
    (x : Obj SearchConfig × Except String (List FetchedJob) × ℚ) : LoopState :=
  let st1 := fetchStep st x.1.val x.2.1
  if indexOf configs x.1 < (configs.length : Int) - 1 then
    { st1 with trace := st1.trace ++ [Event.setTimeout (randomDelay x.2.2)] }
  else st1

/-- The whole loop, for the targets paired with what the fetch and the
random source answer in their iteration. -/
def forOf (inputs : List (Obj SearchConfig × Except String (List FetchedJob) × ℚ))
    (st : LoopState) : LoopState :=
  inputs.foldl (loopBody (inputs.map fun x => x.1)) st

/-- The state before the loop: `seenUrls = new Set(seen.map(s => s.url))`,
`allNewJobs = []`, `placeResults = []`. -/
def initialState (seen : List SeenRecord) (trace : List Event) : LoopState :=
  { seenUrls := newSet (seen.map fun s => s.url)
    allNewJobs := []
    placeResults := []
    trace := trace }

/-- The targets of a run paired with the answers of the world. -/
def loopInputs (env : Env) (w : World) :
    List (Obj SearchConfig × Except String (List FetchedJob) × ℚ) :=
  (allocate (searchConfigs (SEARCH_URL env))).map fun c =>
    (c, w.fetchJobs c.ref c.val.url, w.random c.ref)

/-- The state after the loop of a run that loaded the records `seen`. -/
def loopState (env : Env) (w : World) (seen : List SeenRecord) : LoopState :=
  forOf (loopInputs env w) (initialState seen [Event.init true, Event.getSeenJobs true])

/-! ## The consolidated message -/

/-- The lines pushed for one element of `placeResults`. -/
def resultLines : PlaceResult → List String
  | .error place => ["*" ++ place ++ "* - ERROR NAUKRI ⚠️", ""]
  | .ok place jobs =>
    (if jobs.length > 0 then
      ["*" ++ place ++ "* -"] ++
        jobs.enum.map fun p =>
          toString (p.1 + 1) ++ ") [" ++ p.2.title ++ "](" ++ p.2.url ++ ")"
    else
      ["*" ++ place ++ "* - No New Jobs Found 📉"]) ++ [""]

/-- The array `messageLines` once the message is complete. -/
def messageLines (now : String) (allNewJobs : List Job)
    (placeResults : List PlaceResult) : List String :=
  [ if allNewJobs.length > 0 then
      "🔔 *Naukri Job Alert* - " ++ toString allNewJobs.length ++ " new job(s) found!"
    else
      "✅ *Naukri Job Alert* - No new jobs found",
    "⏰ _" ++ now ++ "_",
    "" ] ++ placeResults.flatMap resultLines

/-- The text sent: `messageLines.join("\n")`. -/
def fullMessage (now : String) (allNewJobs : List Job)
    (placeResults : List PlaceResult) : String :=
  "\n".intercalate (messageLines now allNewJobs placeResults)

/-! ## `main` -/

/-- The steps of `main` after the loop: send the message, then persist. -/
def sendAndPersist (w : World) (token chatId : String) (st : LoopState) : Run :=
  let text := fullMessage w.now st.allNewJobs st.placeResults
  match w.sendTelegramMessage token chatId text with
  | .error e =>
    { trace := st.trace ++ [Event.sendTelegramMessage token chatId text false]
      completion := Completion.rejected e }
  | .ok _ =>
    if st.allNewJobs.length > 0 then
      match w.addSeenJobs st.allNewJobs with
      | .error e =>
        { trace := st.trace ++ [Event.sendTelegramMessage token chatId text true,
            Event.addSeenJobs st.allNewJobs false]
          completion := Completion.rejected e }
      | .ok _ =>
        { trace := st.trace ++ [Event.sendTelegramMessage token chatId text true,
            Event.addSeenJobs st.allNewJobs true]
          completion := Completion.returned }
    else
      { trace := st.trace ++ [Event.sendTelegramMessage token chatId text true]
        completion := Completion.returned }

/-- The function `main` of `index.js`.  A rejection is what
`main().catch(...)` receives and logs. -/
def main (env : Env) (w : World) : Run :=
  if !truthy env.TELEGRAM_BOT_TOKEN || !truthy env.TELEGRAM_CHAT_ID then
    { trace := [], completion := Completion.returned }
  else
    match w.init with
    | .error _ =>
      { trace := [Event.init false, Event.processExit 1], completion := Completion.exited 1 }
    | .ok _ =>
      match w.getSeenJobs with
      | .error e =>
        { trace := [Event.init true, Event.getSeenJobs false]
          completion := Completion.rejected e }
      | .ok seen =>
        sendAndPersist w (env.TELEGRAM_BOT_TOKEN.getD "") (env.TELEGRAM_CHAT_ID.getD "")
          (loopState env w seen)

/-! ## Vocabulary of the statements -/

/-- The postings listed in an element of `placeResults`; an error result
lists none. -/
def PlaceResult.jobs : PlaceResult → List Job
  | .ok _ jobs => jobs
  | .error _ => []

/-- What the bookkeeping of an iteration depends on: the target and the
outcome of its fetch. -/
def target (x : Obj SearchConfig × Except String (List FetchedJob) × ℚ) :
    SearchConfig × Except String (List FetchedJob) :=
  (x.1.val, x.2.1)

/-- The state of the loop after its first `n` iterations. -/
def stateAfter (n : Nat)
    (inputs : List (Obj SearchConfig × Except String (List FetchedJob) × ℚ))
    (st : LoopState) : LoopState :=
  (inputs.take n).foldl (loopBody (inputs.map fun x => x.1)) st

/-- Calls of `sendTelegramMessage`. -/
def Event.isSend : Event → Bool
  | .sendTelegramMessage _ _ _ _ => true
  | _ => false

/-- Calls of `addSeenJobs`. -/
def Event.isAddSeenJobs : Event → Bool
  | .addSeenJobs _ _ => true
  | _ => false

/-- The url of a call of `fetchJobs`. -/
def Event.fetchedUrl : Event → Option String
  | .fetchJobs url _ => some url
  | _ => none

/-- The label of an element of `placeResults`. -/
def PlaceResult.place : PlaceResult → String
  | .ok place _ => place
  | .error place => place

/-- Whether an element of `placeResults` has `error: true`. -/
def PlaceResult.isError : PlaceResult → Bool
  | .ok _ _ => false
  | .error _ => true

/-- Pacing delays. -/
def Event.isSetTimeout : Event → Bool
  | .setTimeout _ => true
  | _ => false

/-- Lines that start with a decimal digit.  In the message these are the
numbered posting lines: every other line is empty or starts with `*` or
with the symbol of a header line. -/
def startsWithDigit (line : String) : Bool :=
  match line.data with
  | c :: _ => c.isDigit
  | [] => false

/-! ## `fetchJobs` (`src/naukriClient.js`) -/

/-- A `div.row1` element as the extraction sees it: the `innerText` and the
`href` of its `h2 > a.title` descendant, when it has one. -/
structure RowElement where
  titleElement : Option (String × String)
deriving DecidableEq, Repr

/-- The answers of the browser automation during one call of `fetchJobs`,
one per awaited call; `evaluate` is either the failure of `page.evaluate` or
the `div.row1` elements of the page in document order. -/
structure Browser where
  launch : Except String Unit
  newPage : Except String Unit
  setUserAgent : Except String Unit
  goto : String → Except String Unit
  waitForSelector : Except String Unit
  evaluate : Except String (List RowElement)
  close : Except String Unit

/-- The function run in the page by `page.evaluate`: for each element with
a title anchor, `title = innerText.trim()` and `url = href` are pushed when
both are truthy. -/
def extractJobs (jobElements : List RowElement) : List FetchedJob :=
  jobElements.filterMap fun element =>
    match element.titleElement with
    | none => none
    | some (innerText, href) =>
      if jsTrim innerText != "" && href != "" then
        some { title := jsTrim innerText, url := href }
      else none

/-- The body of the `try` block of `fetchJobs` once the browser is
launched; an error is what the `catch` block rethrows. -/
def fetchJobsTry (b : Browser) (searchUrl : String) : Except String (List FetchedJob) :=
  match b.newPage with
  | .error e => .error e
  | .ok _ =>
    match b.setUserAgent with
    | .error e => .error e
    | .ok _ =>
      match b.goto searchUrl with
      | .error e => .error e
      | .ok _ =>
        match b.waitForSelector with
        | .error _ => .ok []
        | .ok _ =>
          match b.evaluate with
          | .error e => .error e
          | .ok jobElements => .ok (extractJobs jobElements)

/-- The function `fetchJobs`.  When the launch fails `browser` is undefined
and the `finally` block does nothing; otherwise `browser.close()` is awaited
in the `finally` block and its failure replaces the outcome of the `try`
block. -/
def fetchJobs (b : Browser) (searchUrl : String) : Except String (List FetchedJob) :=
  match b.launch with
  | .error e => .error e
  | .ok _ =>
    match b.close with
    | .error e => .error e
    | .ok _ => fetchJobsTry b searchUrl

/-- A browser in which every call succeeds and the page has three rows: a
posting, a row without title anchor and a row whose title is white space. -/
def demoBrowser : Browser :=
  { launch := Except.ok ()
    newPage := Except.ok ()
    setUserAgent := Except.ok ()
    goto := fun _ => Except.ok ()
    waitForSelector := Except.ok ()
    evaluate := Except.ok
      [ { titleElement := some (" Dev ", "https://n/1") },
        { titleElement := none },
        { titleElement := some ("  ", "https://n/2") } ]
    close := Except.ok () }

/-- A browser in which only setting the user agent fails. -/
def userAgentFailsBrowser : Browser :=
  { demoBrowser with setUserAgent := Except.error "detached" }

/-- A browser in which the job list never appears and closing fails. -/
def closeFailsBrowser : Browser :=
  { demoBrowser with
    waitForSelector := Except.error "timeout"
    close := Except.error "closed" }

/-! ## Concrete runs -/

/-- A store holding one seen url. -/
def demoSeen : List SeenRecord := [{ url := "s" }]

/-- Three targets: the first and the last fetch successfully and share the
url `x`, the second fails. -/
def demoInputs : List (Obj SearchConfig × Except String (List FetchedJob) × ℚ) :=
  [ ({ ref := 0, val := { url := "a", place := some "A" } },
      Except.ok [{ title := "t0", url := "s" }, { title := "t1", url := "x" }], 0),
    ({ ref := 1, val := { url := "b", place := none } }, Except.error "boom", 0),
    ({ ref := 2, val := { url := "c", place := some "C" } },
      Except.ok [{ title := "t1", url := "x" }, { title := "t2", url := "y" }], 0) ]

/-- One target, both credentials set. -/
def demoEnv : Env :=
  { SEARCH_URL := some "a|A", TELEGRAM_BOT_TOKEN := some "tok", TELEGRAM_CHAT_ID := some "chat" }

/-- A world in which every call succeeds, the store holds `s` and the fetch
returns `s` and `x`. -/
def demoWorld : World :=
  { init := Except.ok ()
    getSeenJobs := Except.ok demoSeen
    fetchJobs := fun _ _ =>
      Except.ok [{ title := "t0", url := "s" }, { title := "t1", url := "x" }]
    random := fun _ => 0
    now := "now"
    sendTelegramMessage := fun _ _ _ => Except.ok ()
    addSeenJobs := fun _ => Except.ok () }

/-- The world of the run that follows `demoWorld`: the store now holds `x`
as well. -/
def demoWorldAfter : World :=
  { demoWorld with getSeenJobs := Except.ok [{ url := "s" }, { url := "x" }] }

/-- A world with an empty store whose fetch lists the url `x` twice. -/
def dupWorld : World :=
  { demoWorld with
    getSeenJobs := Except.ok []
    fetchJobs := fun _ _ =>
      Except.ok [{ title := "t1", url := "x" }, { title := "t2", url := "x" }] }

/-- Three targets, both credentials set. -/
def tripleEnv : Env :=
  { SEARCH_URL := some "a|A,b|B,c|C", TELEGRAM_BOT_TOKEN := some "tok",
    TELEGRAM_CHAT_ID := some "chat" }

/-- A world with an empty store in which every fetch returns the one
posting with url `x`. -/
def tripleWorld : World :=
  { demoWorld with
    getSeenJobs := Except.ok []
    fetchJobs := fun _ _ => Except.ok [{ title := "t", url := "x" }] }

/-- One target whose entry has a bar followed by white space only. -/
def blankPlaceEnv : Env :=
  { SEARCH_URL := some "u| ", TELEGRAM_BOT_TOKEN := some "tok", TELEGRAM_CHAT_ID := some "chat" }

/-- A world in which every fetch fails. -/
def failWorld : World :=
  { demoWorld with fetchJobs := fun _ _ => Except.error "boom" }

/-- Two textually identical entries. -/
def twinEnv : Env :=
  { SEARCH_URL := some "a,a", TELEGRAM_BOT_TOKEN := some "tok", TELEGRAM_CHAT_ID := some "chat" }

/-! ## Sets, and what the loop maintains -/

theorem mem_setAdd (s : List String) (u v : String) :
    v ∈ setAdd s u ↔ v ∈ s ∨ v = u := by
  unfold setAdd
  split
  · constructor
    · intro h; exact Or.inl h
    · rintro (h | h)
      · exact h
      · subst h; assumption
  · simp

theorem mem_foldl_setAdd (us : List String) (s : List String) (v : String) :
    v ∈ us.foldl setAdd s ↔ v ∈ s ∨ v ∈ us := by
  induction us generalizing s with
  | nil => simp
  | cons u us ih =>
    simp only [List.foldl_cons, ih, mem_setAdd, List.mem_cons]
    tauto

theorem mem_newSet (us : List String) (v : String) : v ∈ newSet us ↔ v ∈ us := by
  simp [newSet, mem_foldl_setAdd]

theorem mem_foldl_setAdd_url (js : List Job) (s : List String) (v : String) :
    v ∈ js.foldl (fun s j => setAdd s j.url) s ↔ v ∈ s ∨ v ∈ js.map (fun j => j.url) := by
  induction js generalizing s with
  | nil => simp
  | cons j js ih =>
    simp only [List.foldl_cons, ih, mem_setAdd, List.map_cons, List.mem_cons]
    tauto

theorem loopBody_seenUrls (cfgs) (st : LoopState) (x) :
    (loopBody cfgs st x).seenUrls = (fetchStep st x.1.val x.2.1).seenUrls := by
  unfold loopBody; simp only; split <;> rfl

theorem loopBody_allNewJobs (cfgs) (st : LoopState) (x) :
    (loopBody cfgs st x).allNewJobs = (fetchStep st x.1.val x.2.1).allNewJobs := by
  unfold loopBody; simp only; split <;> rfl

theorem loopBody_placeResults (cfgs) (st : LoopState) (x) :
    (loopBody cfgs st x).placeResults = (fetchStep st x.1.val x.2.1).placeResults := by
  unfold loopBody; simp only; split <;> rfl

/-- The bookkeeping of the loop does not depend on the trace, the addresses
or the random values. -/
theorem foldl_loopBody_congr (cfgs cfgs' : List (Obj SearchConfig))
    (xs ys : List (Obj SearchConfig × Except String (List FetchedJob) × ℚ))
    (h : xs.map target = ys.map target) (st st' : LoopState)
    (h1 : st.seenUrls = st'.seenUrls) (h2 : st.allNewJobs = st'.allNewJobs)
    (h3 : st.placeResults = st'.placeResults) :
    (xs.foldl (loopBody cfgs) st).seenUrls = (ys.foldl (loopBody cfgs') st').seenUrls ∧
    (xs.foldl (loopBody cfgs) st).allNewJobs = (ys.foldl (loopBody cfgs') st').allNewJobs ∧
    (xs.foldl (loopBody cfgs) st).placeResults = (ys.foldl (loopBody cfgs') st').placeResults := by
  induction xs generalizing ys st st' with
  | nil =>
    cases ys with
    | nil => exact ⟨h1, h2, h3⟩
    | cons y ys => simp at h
  | cons x xs ih =>
    cases ys with
    | nil => simp at h
    | cons y ys =>
      simp only [List.map_cons, List.cons.injEq] at h
      obtain ⟨hxy, hrest⟩ := h
      simp only [target, Prod.mk.injEq] at hxy
      simp only [List.foldl_cons]
      apply ih ys hrest
      · rw [loopBody_seenUrls, loopBody_seenUrls, hxy.1, hxy.2]
        cases y.2.1 <;> simp [fetchStep, h1]
      · rw [loopBody_allNewJobs, loopBody_allNewJobs, hxy.1, hxy.2]
        cases y.2.1 <;> simp [fetchStep, h1, h2]
      · rw [loopBody_placeResults, loopBody_placeResults, hxy.1, hxy.2]
        cases y.2.1 <;> simp [fetchStep, h1, h3]

/-- What the loop appends: one result per target; `allNewJobs` collects the
listed postings; `seenUrls` gains their urls. -/
theorem foldl_loopBody_appends (cfgs : List (Obj SearchConfig))
    (xs : List (Obj SearchConfig × Except String (List FetchedJob) × ℚ)) (st : LoopState) :
    ∃ R : List PlaceResult, R.length = xs.length ∧
      (xs.foldl (loopBody cfgs) st).placeResults = st.placeResults ++ R ∧
      (xs.foldl (loopBody cfgs) st).allNewJobs = st.allNewJobs ++ R.flatMap PlaceResult.jobs ∧
      ∀ u, u ∈ (xs.foldl (loopBody cfgs) st).seenUrls ↔
        u ∈ st.seenUrls ∨ u ∈ (R.flatMap PlaceResult.jobs).map fun j => j.url := by
  induction xs generalizing st with
  | nil => exact ⟨[], rfl, by simp, by simp, by simp⟩
  | cons x xs ih =>
    obtain ⟨R, hl, hp, ha, hs⟩ := ih (loopBody cfgs st x)
    rw [loopBody_placeResults] at hp
    rw [loopBody_allNewJobs] at ha
    simp only [loopBody_seenUrls] at hs
    simp only [List.foldl_cons]
    cases hx : x.2.1 with
    | error e =>
      rw [hx] at hp ha hs
      refine ⟨PlaceResult.error (orElse x.1.val.place "Unknown") :: R, by simp [hl], ?_, ?_, ?_⟩
      · rw [hp]; simp [fetchStep]
      · rw [ha]; simp [fetchStep, PlaceResult.jobs]
      · intro u; rw [hs]; simp [fetchStep, PlaceResult.jobs]
    | ok jobs =>
      rw [hx] at hp ha hs
      refine ⟨PlaceResult.ok (orElse x.1.val.place "Naukri")
        ((jobs.filter fun j => !setHas st.seenUrls j.url).map fun j =>
          { title := j.title, url := j.url, place := x.1.val.place }) :: R, by simp [hl], ?_, ?_, ?_⟩
      · rw [hp]; simp [fetchStep]
      · rw [ha]; simp [fetchStep, PlaceResult.jobs]
      · intro u; rw [hs]
        simp only [fetchStep, mem_foldl_setAdd_url, List.flatMap_cons, PlaceResult.jobs,
          List.map_append, List.mem_append]
        tauto

/-- The urls in `seenUrls` after the loop: those it started with and those
of every fetched list. -/
theorem foldl_loopBody_seenUrls (cfgs : List (Obj SearchConfig))
    (xs : List (Obj SearchConfig × Except String (List FetchedJob) × ℚ)) (st : LoopState)
    (u : String) :
    u ∈ (xs.foldl (loopBody cfgs) st).seenUrls ↔
      u ∈ st.seenUrls ∨ ∃ x ∈ xs, ∃ L, x.2.1 = .ok L ∧ u ∈ L.map fun j => j.url := by
  induction xs generalizing st with
  | nil => simp
  | cons x xs ih =>
    simp only [List.foldl_cons, ih, loopBody_seenUrls, List.mem_cons, exists_eq_or_imp]
    cases hx : x.2.1 with
    | error e => simp [fetchStep]
    | ok jobs =>
      simp only [fetchStep, mem_foldl_setAdd_url, List.map_map, List.mem_map, List.mem_filter,
        Function.comp, setHas, Except.ok.injEq, exists_eq_left']
      constructor
      · rintro ((h | ⟨j, ⟨hj, _⟩, rfl⟩) | h)
        · exact Or.inl h
        · exact Or.inr (Or.inl ⟨j, hj, rfl⟩)
        · exact Or.inr (Or.inr h)
      · rintro (h | ⟨j, hj, rfl⟩ | h)
        · exact Or.inl (Or.inl h)
        · by_cases hm : j.url ∈ st.seenUrls
          · exact Or.inl (Or.inl hm)
          · exact Or.inl (Or.inr ⟨j, ⟨hj, by simpa using hm⟩, rfl⟩)
        · exact Or.inr h


/-- The result of the target at position `pre.length`, with the results
before it and the state it was computed from. -/
theorem foldl_loopBody_split (cfgs : List (Obj SearchConfig))
    (pre post : List (Obj SearchConfig × Except String (List FetchedJob) × ℚ))
    (x : Obj SearchConfig × Except String (List FetchedJob) × ℚ) (seen : List SeenRecord)
    (tr : List Event) :
    ∃ (A : LoopState) (R R' : List PlaceResult) (res : PlaceResult),
      A = pre.foldl (loopBody cfgs) (initialState seen tr) ∧
      R.length = pre.length ∧ A.placeResults = R ∧
      A.allNewJobs = R.flatMap PlaceResult.jobs ∧
      (∀ u, u ∈ A.seenUrls ↔
        u ∈ seen.map (fun s => s.url) ∨ u ∈ (R.flatMap PlaceResult.jobs).map fun j => j.url) ∧
      (fetchStep A x.1.val x.2.1).placeResults = R ++ [res] ∧
      ((pre ++ x :: post).foldl (loopBody cfgs) (initialState seen tr)).placeResults
        = R ++ res :: R' := by
  obtain ⟨R, hl, hp, ha, hs⟩ := foldl_loopBody_appends cfgs pre (initialState seen tr)
  obtain ⟨R', -, hp', -, -⟩ := foldl_loopBody_appends cfgs post
    (loopBody cfgs (pre.foldl (loopBody cfgs) (initialState seen tr)) x)
  simp only [initialState, List.nil_append] at hp ha hs
  have hres : ∃ res, (fetchStep (pre.foldl (loopBody cfgs) (initialState seen tr)) x.1.val
      x.2.1).placeResults = R ++ [res] := by
    cases hx : x.2.1 with
    | error e =>
      exact ⟨PlaceResult.error (orElse x.1.val.place "Unknown"),
        by simp [fetchStep, initialState, hp]⟩
    | ok jobs =>
      exact ⟨PlaceResult.ok (orElse x.1.val.place "Naukri")
        ((jobs.filter fun j => !setHas (pre.foldl (loopBody cfgs)
          (initialState seen tr)).seenUrls j.url).map fun j =>
          { title := j.title, url := j.url, place := x.1.val.place }),
        by simp [fetchStep, initialState, hp]⟩
  obtain ⟨res, hres⟩ := hres
  refine ⟨_, R, R', res, rfl, hl, by simpa [initialState] using hp,
    by simpa [initialState] using ha, ?_, hres, ?_⟩
  · intro u
    have := hs u
    simp only [mem_newSet] at this
    simpa [initialState] using this
  · rw [List.foldl_append, List.foldl_cons, hp', loopBody_placeResults, hres]
    simp

theorem getElem?_split {α : Type} (l : List α) (i : Nat) (a : α) (h : l[i]? = some a) :
    l = l.take i ++ a :: l.drop (i + 1) ∧ (l.take i).length = i := by
  have hi : i < l.length := by
    by_contra hc
    rw [List.getElem?_eq_none (by omega)] at h
    cases h
  have ha : l[i] = a := by
    rw [List.getElem?_eq_getElem hi] at h
    exact Option.some.inj h
  refine ⟨?_, by simp; omega⟩
  rw [← ha, ← List.drop_eq_getElem_cons hi, List.take_append_drop]


/-- The result at position `pre.length` is the one the iteration of `x`
appends to the state reached after `pre`. -/
theorem foldl_loopBody_getElem? (cfgs : List (Obj SearchConfig))
    (pre post : List (Obj SearchConfig × Except String (List FetchedJob) × ℚ))
    (x : Obj SearchConfig × Except String (List FetchedJob) × ℚ) (seen : List SeenRecord)
    (tr : List Event) :
    ((pre ++ x :: post).foldl (loopBody cfgs) (initialState seen tr)).placeResults[pre.length]?
      = (fetchStep (pre.foldl (loopBody cfgs) (initialState seen tr)) x.1.val
          x.2.1).placeResults[pre.length]? := by
  obtain ⟨A, R, R', res, hA, hl, hp, -, -, hres, hall⟩ :=
    foldl_loopBody_split cfgs pre post x seen tr
  subst hA
  rw [hall, hres, ← hl, List.getElem?_append_right (le_refl _),
    List.getElem?_append_right (le_refl _)]
  simp

theorem take_succ_of_getElem? {α : Type} (l : List α) (i : Nat) (a : α) (h : l[i]? = some a) :
    l.take (i + 1) = l.take i ++ [a] := by
  rw [List.take_succ, h]; rfl

theorem result_of_target (cfgs : List (Obj SearchConfig))
    (pre post : List (Obj SearchConfig × Except String (List FetchedJob) × ℚ))
    (c : Obj SearchConfig) (L : List FetchedJob) (r : ℚ) (seen : List SeenRecord)
    (tr : List Event) :
    ((pre ++ (c, Except.ok L, r) :: post).foldl (loopBody cfgs)
        (initialState seen tr)).placeResults[pre.length]? =
      some (PlaceResult.ok (orElse c.val.place "Naukri")
        ((L.filter fun j => decide (j.url ∉ seen.map (fun s => s.url) ∧
            j.url ∉ (((((pre ++ (c, Except.ok L, r) :: post).foldl (loopBody cfgs)
              (initialState seen tr)).placeResults.take pre.length).flatMap
              PlaceResult.jobs).map fun j => j.url))).map
          fun j => { title := j.title, url := j.url, place := c.val.place })) := by
  obtain ⟨A, R, R', res, hA, hl, hp, -, hs, hres, hall⟩ :=
    foldl_loopBody_split cfgs pre post (c, Except.ok L, r) seen tr
  rw [foldl_loopBody_getElem?, ← hA, hall, ← hl]
  simp only [List.take_left', fetchStep, hp]
  rw [List.getElem?_append_right (le_refl _)]
  simp only [Nat.sub_self, List.getElem?_cons_zero, Option.some.injEq, PlaceResult.ok.injEq,
    true_and]
  congr 1
  apply List.filter_congr
  intro j _
  simp only [setHas, hs]
  by_cases h1 : j.url ∈ seen.map (fun s => s.url) <;>
    by_cases h2 : j.url ∈ (R.flatMap PlaceResult.jobs).map (fun j => j.url) <;> simp [h1, h2]


/-- C1.  For a target at position `i` whose fetch returned the list `L`, the
result recorded at position `i` lists exactly the postings of `L` whose url
is neither among the urls loaded from the store at run start nor among the
urls of the postings recorded for the targets before `i`, in the order of
`L`, each tagged with the place of the target; and the targets that follow
`i`, whatever they are and whatever they fetch, do not change that
result. -/
theorem new_postings_of_target (seen : List SeenRecord) (tr : List Event)
    (inputs : List (Obj SearchConfig × Except String (List FetchedJob) × ℚ)) (i : Nat)
    (c : Obj SearchConfig) (L : List FetchedJob) (r : ℚ)
    (hi : inputs[i]? = some (c, Except.ok L, r)) :
    (forOf inputs (initialState seen tr)).placeResults[i]? =
      some (PlaceResult.ok (orElse c.val.place "Naukri")
        ((L.filter fun j => decide (j.url ∉ seen.map (fun s => s.url) ∧
            j.url ∉ (((forOf inputs (initialState seen tr)).placeResults.take i).flatMap
              PlaceResult.jobs).map fun j => j.url)).map
          fun j => { title := j.title, url := j.url, place := c.val.place })) ∧
    ∀ later tr', (forOf (inputs.take (i + 1) ++ later) (initialState seen tr')).placeResults[i]? =
      (forOf inputs (initialState seen tr)).placeResults[i]? := by
  obtain ⟨hsplit, hlen⟩ := getElem?_split inputs i _ hi
  constructor
  · have h := result_of_target (inputs.map fun x => x.1) (inputs.take i) (inputs.drop (i + 1))
      c L r seen tr
    rw [← hsplit, hlen] at h
    exact h
  · intro later tr'
    have h1 := foldl_loopBody_getElem? (inputs.map fun x => x.1) (inputs.take i)
      (inputs.drop (i + 1)) (c, Except.ok L, r) seen tr
    rw [← hsplit, hlen] at h1
    have h2 := foldl_loopBody_getElem?
      ((inputs.take (i + 1) ++ later).map fun x => x.1) (inputs.take i)
      later (c, Except.ok L, r) seen tr'
    rw [hlen] at h2
    have ht : inputs.take (i + 1) ++ later = inputs.take i ++ (c, Except.ok L, r) :: later := by
      rw [take_succ_of_getElem? inputs i _ hi]; simp
    rw [← ht] at h2
    unfold forOf
    rw [h1, h2]
    obtain ⟨hs, ha, hp⟩ := foldl_loopBody_congr
      ((inputs.take (i + 1) ++ later).map fun x => x.1) (inputs.map fun x => x.1)
      (inputs.take i) (inputs.take i) rfl (initialState seen tr') (initialState seen tr)
      rfl rfl rfl
    simp only [fetchStep, hs, hp]

/-- The result of a target whose fetch succeeded, in terms of `seenUrls`
as it stands when the target is reached. -/
theorem result_of_ok_target (cfgs : List (Obj SearchConfig))
    (pre post : List (Obj SearchConfig × Except String (List FetchedJob) × ℚ))
    (c : Obj SearchConfig) (L : List FetchedJob) (r : ℚ) (seen : List SeenRecord)
    (tr : List Event) :
    ((pre ++ (c, Except.ok L, r) :: post).foldl (loopBody cfgs)
        (initialState seen tr)).placeResults[pre.length]? =
      some (PlaceResult.ok (orElse c.val.place "Naukri")
        ((L.filter fun j =>
            !setHas (pre.foldl (loopBody cfgs) (initialState seen tr)).seenUrls j.url).map
          fun j => { title := j.title, url := j.url, place := c.val.place })) := by
  obtain ⟨A, R, R', res, hA, hl, hp, -, -, -, -⟩ :=
    foldl_loopBody_split cfgs pre post (c, Except.ok L, r) seen tr
  rw [foldl_loopBody_getElem?, ← hA]
  simp only [fetchStep, hp, ← hl]
  rw [List.getElem?_append_right (le_refl _)]
  simp

/-- The result of a target whose fetch failed. -/
theorem result_of_error_target (cfgs : List (Obj SearchConfig))
    (pre post : List (Obj SearchConfig × Except String (List FetchedJob) × ℚ))
    (c : Obj SearchConfig) (e : String) (r : ℚ) (seen : List SeenRecord)
    (tr : List Event) :
    ((pre ++ (c, Except.error e, r) :: post).foldl (loopBody cfgs)
        (initialState seen tr)).placeResults[pre.length]? =
      some (PlaceResult.error (orElse c.val.place "Unknown")) := by
  obtain ⟨A, R, R', res, hA, hl, hp, -, -, -, -⟩ :=
    foldl_loopBody_split cfgs pre post (c, Except.error e, r) seen tr
  rw [foldl_loopBody_getElem?, ← hA]
  simp only [fetchStep, hp, ← hl]
  rw [List.getElem?_append_right (le_refl _)]
  simp

/-- Two runs of the loop over the same targets and outcomes, started with
the same `seenUrls`, append the same results. -/
theorem foldl_loopBody_joint (cfgs cfgs' : List (Obj SearchConfig))
    (xs ys : List (Obj SearchConfig × Except String (List FetchedJob) × ℚ))
    (h : xs.map target = ys.map target) (st st' : LoopState)
    (h1 : st.seenUrls = st'.seenUrls) :
    ∃ R : List PlaceResult,
      (xs.foldl (loopBody cfgs) st).placeResults = st.placeResults ++ R ∧
      (ys.foldl (loopBody cfgs') st').placeResults = st'.placeResults ++ R ∧
      (xs.foldl (loopBody cfgs) st).allNewJobs = st.allNewJobs ++ R.flatMap PlaceResult.jobs ∧
      (ys.foldl (loopBody cfgs') st').allNewJobs
        = st'.allNewJobs ++ R.flatMap PlaceResult.jobs := by
  induction xs generalizing ys st st' with
  | nil =>
    cases ys with
    | nil => exact ⟨[], by simp, by simp, by simp, by simp⟩
    | cons y ys => simp at h
  | cons x xs ih =>
    cases ys with
    | nil => simp at h
    | cons y ys =>
      simp only [List.map_cons, List.cons.injEq] at h
      obtain ⟨hxy, hrest⟩ := h
      simp only [target, Prod.mk.injEq] at hxy
      have hseen : (loopBody cfgs st x).seenUrls = (loopBody cfgs' st' y).seenUrls := by
        rw [loopBody_seenUrls, loopBody_seenUrls, hxy.1, hxy.2]
        cases y.2.1 <;> simp [fetchStep, h1]
      obtain ⟨R, hp, hp', ha, ha'⟩ := ih ys hrest _ _ hseen
      simp only [List.foldl_cons]
      rw [hp, hp', ha, ha']
      simp only [loopBody_placeResults, loopBody_allNewJobs, hxy.1, hxy.2]
      cases hy : y.2.1 with
      | error e =>
        exact ⟨PlaceResult.error (orElse y.1.val.place "Unknown") :: R,
          by simp [fetchStep], by simp [fetchStep], by simp [fetchStep, PlaceResult.jobs],
          by simp [fetchStep, PlaceResult.jobs]⟩
      | ok jobs =>
        exact ⟨PlaceResult.ok (orElse y.1.val.place "Naukri")
          ((jobs.filter fun j => !setHas st.seenUrls j.url).map fun j =>
            { title := j.title, url := j.url, place := y.1.val.place }) :: R,
          by simp [fetchStep], by simp [fetchStep, h1], by simp [fetchStep, PlaceResult.jobs],
          by simp [fetchStep, PlaceResult.jobs, h1]⟩

/-- Every result the loop appends lists only postings whose url was not in
`seenUrls` when the loop started. -/
theorem foldl_loopBody_fresh (cfgs : List (Obj SearchConfig))
    (xs : List (Obj SearchConfig × Except String (List FetchedJob) × ℚ)) (st : LoopState)
    (res : PlaceResult) (hres : res ∈ (xs.foldl (loopBody cfgs) st).placeResults) :
    res ∈ st.placeResults ∨ ∀ j ∈ res.jobs, j.url ∉ st.seenUrls := by
  induction xs generalizing st with
  | nil => exact Or.inl hres
  | cons x xs ih =>
    rcases ih (loopBody cfgs st x) hres with h | h
    · rw [loopBody_placeResults] at h
      cases hx : x.2.1 with
      | error e =>
        rw [hx] at h
        simp only [fetchStep, List.mem_append, List.mem_singleton] at h
        rcases h with h | h
        · exact Or.inl h
        · subst h; right; intro j hj; simp [PlaceResult.jobs] at hj
      | ok jobs =>
        rw [hx] at h
        simp only [fetchStep, List.mem_append, List.mem_singleton] at h
        rcases h with h | h
        · exact Or.inl h
        · subst h; right; intro j hj
          simp only [PlaceResult.jobs, List.mem_map, List.mem_filter, setHas] at hj
          obtain ⟨f, ⟨-, hf⟩, rfl⟩ := hj
          simpa using hf
    · right
      intro j hj hmem
      apply h j hj
      rw [loopBody_seenUrls]
      cases hx : x.2.1 with
      | error e => simpa [fetchStep] using hmem
      | ok jobs =>
        simp only [fetchStep, mem_foldl_setAdd_url]
        exact Or.inl hmem

/-- With fetched lists free of repeated urls, the urls of `allNewJobs` stay
pairwise distinct and inside `seenUrls`. -/
theorem foldl_loopBody_nodup (cfgs : List (Obj SearchConfig))
    (xs : List (Obj SearchConfig × Except String (List FetchedJob) × ℚ)) (st : LoopState)
    (hxs : ∀ x ∈ xs, ∀ L, x.2.1 = Except.ok L → (L.map fun j => j.url).Nodup)
    (hnd : (st.allNewJobs.map fun j => j.url).Nodup)
    (hsub : ∀ u ∈ st.allNewJobs.map (fun j => j.url), u ∈ st.seenUrls) :
    ((xs.foldl (loopBody cfgs) st).allNewJobs.map fun j => j.url).Nodup := by
  induction xs generalizing st with
  | nil => exact hnd
  | cons x xs ih =>
    simp only [List.foldl_cons]
    apply ih
    · intro y hy; exact hxs y (List.mem_cons_of_mem _ hy)
    · rw [loopBody_allNewJobs]
      cases hx : x.2.1 with
      | error e => simpa [fetchStep] using hnd
      | ok jobs =>
        simp only [fetchStep, List.map_append, List.map_map]
        rw [List.nodup_append]
        refine ⟨hnd, ?_, ?_⟩
        · have h0 := hxs x (List.mem_cons_self _ _) jobs hx
          exact h0.sublist ((List.filter_sublist jobs).map _)
        · intro u hu hu'
          simp only [List.mem_map, List.mem_filter, Function.comp, setHas] at hu'
          obtain ⟨f, ⟨-, hf⟩, rfl⟩ := hu'
          have := hsub _ hu
          simp [this] at hf
    · intro u hu
      rw [loopBody_allNewJobs] at hu
      rw [loopBody_seenUrls]
      cases hx : x.2.1 with
      | error e =>
        rw [hx] at hu
        simp only [fetchStep] at hu ⊢
        exact hsub u hu
      | ok jobs =>
        rw [hx] at hu
        simp only [fetchStep, List.map_append, List.mem_append] at hu
        simp only [fetchStep, mem_foldl_setAdd_url]
        rcases hu with hu | hu
        · exact Or.inl (hsub u hu)
        · exact Or.inr hu

/-- C2, amended.  When no successfully fetched list contains the same url
twice, `allNewJobs` contains no two postings with the same url, for every
content of the store and every sequence of fetch outcomes. -/
theorem allNewJobs_nodup (seen : List SeenRecord) (tr : List Event)
    (inputs : List (Obj SearchConfig × Except String (List FetchedJob) × ℚ))
    (h : ∀ x ∈ inputs, ∀ L, x.2.1 = Except.ok L → (L.map fun j => j.url).Nodup) :
    ((forOf inputs (initialState seen tr)).allNewJobs.map fun j => j.url).Nodup :=
  foldl_loopBody_nodup _ inputs (initialState seen tr) h (by simp [initialState])
    (by simp [initialState])

/-- C3.  No posting of `allNewJobs`, and no posting listed in an element of
`placeResults`, has a url that was in the store at run start. -/
theorem new_postings_not_in_store (seen : List SeenRecord) (tr : List Event)
    (inputs : List (Obj SearchConfig × Except String (List FetchedJob) × ℚ)) :
    (∀ j ∈ (forOf inputs (initialState seen tr)).allNewJobs,
      j.url ∉ seen.map fun s => s.url) ∧
    (∀ res ∈ (forOf inputs (initialState seen tr)).placeResults, ∀ j ∈ res.jobs,
      j.url ∉ seen.map fun s => s.url) := by
  have hres : ∀ res ∈ (forOf inputs (initialState seen tr)).placeResults, ∀ j ∈ res.jobs,
      j.url ∉ seen.map fun s => s.url := by
    intro res hres j hj
    rcases foldl_loopBody_fresh _ inputs (initialState seen tr) res hres with h | h
    · simp [initialState] at h
    · have := h j hj
      simpa [initialState, mem_newSet] using this
  refine ⟨?_, hres⟩
  intro j hj
  obtain ⟨R, -, hp, ha, -⟩ := foldl_loopBody_appends (inputs.map fun x => x.1) inputs
    (initialState seen tr)
  unfold forOf at hj hres
  rw [ha] at hj
  rw [hp] at hres
  simp only [initialState, List.nil_append, List.mem_flatMap] at hj hres
  obtain ⟨res, hres', hj'⟩ := hj
  exact hres res hres' j hj'

theorem mem_take_iff_getElem? {α : Type} (l : List α) (n : Nat) (a : α) :
    a ∈ l.take n ↔ ∃ h, h < n ∧ l[h]? = some a := by
  rw [List.mem_iff_getElem?]
  constructor
  · rintro ⟨h, hh⟩
    rw [List.getElem?_take] at hh
    split at hh
    · exact ⟨h, by assumption, hh⟩
    · cases hh
  · rintro ⟨h, hlt, hh⟩
    exact ⟨h, by rw [List.getElem?_take, if_pos hlt]; exact hh⟩

/-- Which urls the result of a successfully fetched target lists: those of
its fetched list that are neither in the store at run start nor in the
fetched list of an earlier target. -/
theorem mem_result_iff (seen : List SeenRecord) (tr : List Event)
    (inputs : List (Obj SearchConfig × Except String (List FetchedJob) × ℚ)) (i : Nat)
    (c : Obj SearchConfig) (L : List FetchedJob) (r : ℚ)
    (hi : inputs[i]? = some (c, Except.ok L, r)) :
    ∃ res, (forOf inputs (initialState seen tr)).placeResults[i]? = some res ∧
      ∀ u, u ∈ res.jobs.map (fun j => j.url) ↔
        u ∈ L.map (fun j => j.url) ∧ u ∉ seen.map (fun s => s.url) ∧
        ∀ h, h < i → ∀ x L', inputs[h]? = some x → x.2.1 = Except.ok L' →
          u ∉ L'.map fun j => j.url := by
  obtain ⟨hsplit, hlen⟩ := getElem?_split inputs i _ hi
  have h := result_of_ok_target (inputs.map fun x => x.1) (inputs.take i)
    (inputs.drop (i + 1)) c L r seen tr
  rw [← hsplit, hlen] at h
  refine ⟨_, h, ?_⟩
  intro u
  simp only [PlaceResult.jobs, List.map_map, List.mem_map, List.mem_filter, Function.comp,
    setHas, Bool.not_eq_true', decide_eq_false_iff_not, foldl_loopBody_seenUrls,
    mem_take_iff_getElem?, initialState, mem_newSet]
  constructor
  · rintro ⟨f, ⟨hf, hnot⟩, rfl⟩
    refine ⟨⟨f, hf, rfl⟩, fun hs => hnot (Or.inl hs), ?_⟩
    intro h hlt x L' hx hL' hmem
    exact hnot (Or.inr ⟨x, ⟨h, hlt, hx⟩, L', hL', hmem⟩)
  · rintro ⟨⟨f, hf, rfl⟩, hs, hprev⟩
    refine ⟨f, ⟨hf, ?_⟩, rfl⟩
    rintro (hs' | ⟨x, ⟨h, hlt, hx⟩, L', hL', hmem⟩)
    · exact hs hs'
    · exact hprev h hlt x L' hx hL' hmem

/-- C4, amended.  For targets `i < j` that both fetch successfully, a url
returned by the fetch of `i` and not in the store at run start is listed in
no posting of the result of `j`; it is listed in the result of `i` exactly
when no successfully fetched target before `i` returned it. -/
theorem shared_url_reported_once (seen : List SeenRecord) (tr : List Event)
    (inputs : List (Obj SearchConfig × Except String (List FetchedJob) × ℚ)) (i j : Nat)
    (ci cj : Obj SearchConfig) (Li Lj : List FetchedJob) (ri rj : ℚ) (u : String)
    (hij : i < j)
    (hi : inputs[i]? = some (ci, Except.ok Li, ri))
    (hj : inputs[j]? = some (cj, Except.ok Lj, rj))
    (hui : u ∈ Li.map fun f => f.url)
    (hu : u ∉ seen.map fun s => s.url) :
    (∃ resj, (forOf inputs (initialState seen tr)).placeResults[j]? = some resj ∧
      u ∉ resj.jobs.map fun p => p.url) ∧
    (∃ resi, (forOf inputs (initialState seen tr)).placeResults[i]? = some resi ∧
      (u ∈ resi.jobs.map (fun p => p.url) ↔
        ∀ h, h < i → ∀ x L, inputs[h]? = some x → x.2.1 = Except.ok L →
          u ∉ L.map fun f => f.url)) := by
  obtain ⟨resj, hresj, hmemj⟩ := mem_result_iff seen tr inputs j cj Lj rj hj
  obtain ⟨resi, hresi, hmemi⟩ := mem_result_iff seen tr inputs i ci Li ri hi
  refine ⟨⟨resj, hresj, ?_⟩, ⟨resi, hresi, ?_⟩⟩
  · intro hmem
    exact ((hmemj u).1 hmem).2.2 i hij _ Li hi rfl hui
  · rw [hmemi u]
    constructor
    · intro h; exact h.2.2
    · intro h; exact ⟨hui, hu, h⟩

/-- The events the loop records: one call of `fetchJobs` per target, in
order, and pacing delays; no call of the notifier or of `addSeenJobs`. -/
theorem foldl_loopBody_trace (cfgs : List (Obj SearchConfig))
    (xs : List (Obj SearchConfig × Except String (List FetchedJob) × ℚ)) (st : LoopState) :
    ∃ T : List Event, (xs.foldl (loopBody cfgs) st).trace = st.trace ++ T ∧
      T.filterMap Event.fetchedUrl = xs.map (fun x => x.1.val.url) ∧
      ∀ ev ∈ T, ev.isSend = false ∧ ev.isAddSeenJobs = false := by
  induction xs generalizing st with
  | nil => exact ⟨[], by simp, by simp, by simp⟩
  | cons x xs ih =>
    obtain ⟨T, ht, hf, hn⟩ := ih (loopBody cfgs st x)
    have hstep : ∃ T0 : List Event, (loopBody cfgs st x).trace = st.trace ++ T0 ∧
        T0.filterMap Event.fetchedUrl = [x.1.val.url] ∧
        ∀ ev ∈ T0, ev.isSend = false ∧ ev.isAddSeenJobs = false := by
      unfold loopBody
      simp only
      split
      · cases hx : x.2.1 with
        | error e =>
          exact ⟨[Event.fetchJobs x.1.val.url false, Event.setTimeout (randomDelay x.2.2)],
            by simp [fetchStep], by simp [Event.fetchedUrl],
            by simp [Event.isSend, Event.isAddSeenJobs]⟩
        | ok jobs =>
          exact ⟨[Event.fetchJobs x.1.val.url true, Event.setTimeout (randomDelay x.2.2)],
            by simp [fetchStep], by simp [Event.fetchedUrl],
            by simp [Event.isSend, Event.isAddSeenJobs]⟩
      · cases hx : x.2.1 with
        | error e =>
          exact ⟨[Event.fetchJobs x.1.val.url false],
            by simp [fetchStep], by simp [Event.fetchedUrl],
            by simp [Event.isSend, Event.isAddSeenJobs]⟩
        | ok jobs =>
          exact ⟨[Event.fetchJobs x.1.val.url true],
            by simp [fetchStep], by simp [Event.fetchedUrl],
            by simp [Event.isSend, Event.isAddSeenJobs]⟩
    obtain ⟨T0, ht0, hf0, hn0⟩ := hstep
    refine ⟨T0 ++ T, ?_, ?_, ?_⟩
    · simp only [List.foldl_cons, ht, ht0, List.append_assoc]
    · simp [hf, hf0]
    · intro ev hev
      rcases List.mem_append.1 hev with h | h
      · exact hn0 ev h
      · exact hn ev h

theorem eraseIdx_split {α : Type} (pre post : List α) (a : α) :
    (pre ++ a :: post).eraseIdx pre.length = pre ++ post := by
  rw [List.eraseIdx_append_of_length_le (le_refl _)]
  simp

/-- C5.  When the fetch of the target at position `k` fails: the loop still
records one result per target and calls `fetchJobs` for every target in
order; the result at position `k` is the error result with the label
`config.place || "Unknown"`; the iteration of `k` leaves `seenUrls` and
`allNewJobs` as they were; and a run over the same targets and outcomes
without target `k` records the same results for the other targets, and the
same `allNewJobs`. -/
theorem fetch_failure_isolated (seen : List SeenRecord) (tr : List Event)
    (inputs : List (Obj SearchConfig × Except String (List FetchedJob) × ℚ)) (k : Nat)
    (c : Obj SearchConfig) (e : String) (r : ℚ)
    (hk : inputs[k]? = some (c, Except.error e, r)) :
    (forOf inputs (initialState seen tr)).placeResults.length = inputs.length ∧
    (forOf inputs (initialState seen tr)).trace.filterMap Event.fetchedUrl
      = tr.filterMap Event.fetchedUrl ++ inputs.map (fun x => x.1.val.url) ∧
    (forOf inputs (initialState seen tr)).placeResults[k]?
      = some (PlaceResult.error (orElse c.val.place "Unknown")) ∧
    (stateAfter (k + 1) inputs (initialState seen tr)).seenUrls
      = (stateAfter k inputs (initialState seen tr)).seenUrls ∧
    (stateAfter (k + 1) inputs (initialState seen tr)).allNewJobs
      = (stateAfter k inputs (initialState seen tr)).allNewJobs ∧
    ∀ inputs' tr', inputs'.map target = (inputs.eraseIdx k).map target →
      (forOf inputs' (initialState seen tr')).placeResults
        = (forOf inputs (initialState seen tr)).placeResults.eraseIdx k ∧
      (forOf inputs' (initialState seen tr')).allNewJobs
        = (forOf inputs (initialState seen tr)).allNewJobs := by
  obtain ⟨hsplit, hlen⟩ := getElem?_split inputs k _ hk
  refine ⟨?_, ?_, ?_, ?_, ?_, ?_⟩
  · obtain ⟨R, hl, hp, -, -⟩ := foldl_loopBody_appends (inputs.map fun x => x.1) inputs
      (initialState seen tr)
    unfold forOf
    rw [hp]
    simp [initialState, hl]
  · obtain ⟨T, ht, hf, -⟩ := foldl_loopBody_trace (inputs.map fun x => x.1) inputs
      (initialState seen tr)
    unfold forOf
    rw [ht]
    simp [initialState, hf]
  · have h := result_of_error_target (inputs.map fun x => x.1) (inputs.take k)
      (inputs.drop (k + 1)) c e r seen tr
    rw [← hsplit, hlen] at h
    exact h
  · unfold stateAfter
    rw [take_succ_of_getElem? inputs k _ hk, List.foldl_append]
    simp [loopBody_seenUrls, fetchStep]
  · unfold stateAfter
    rw [take_succ_of_getElem? inputs k _ hk, List.foldl_append]
    simp [loopBody_allNewJobs, fetchStep]
  · intro inputs' tr' h'
    generalize hcfg : (inputs.map fun x => x.1) = cfgs
    have hF : forOf inputs (initialState seen tr)
        = (inputs.take k ++ (c, Except.error e, r) :: inputs.drop (k + 1)).foldl
            (loopBody cfgs) (initialState seen tr) := by
      unfold forOf; rw [hcfg, ← hsplit]
    have herase : inputs.eraseIdx k = inputs.take k ++ inputs.drop (k + 1) := by
      conv_lhs => rw [hsplit]
      have := eraseIdx_split (inputs.take k) (inputs.drop (k + 1)) (c, Except.error e, r)
      rw [hlen] at this
      exact this
    rw [herase] at h'
    -- the run without the target
    obtain ⟨R1, hp1, hp1', ha1, ha1'⟩ := foldl_loopBody_joint
      (inputs'.map fun x => x.1) cfgs inputs' (inputs.take k ++ inputs.drop (k + 1)) h'
      (initialState seen tr') (initialState seen tr) rfl
    -- the targets after the failed one, with and without its iteration
    obtain ⟨R2, hp2, hp2', ha2, ha2'⟩ := foldl_loopBody_joint cfgs cfgs
      (inputs.drop (k + 1)) (inputs.drop (k + 1)) rfl
      (loopBody cfgs ((inputs.take k).foldl (loopBody cfgs) (initialState seen tr))
        (c, Except.error e, r))
      ((inputs.take k).foldl (loopBody cfgs) (initialState seen tr))
      (by simp [loopBody_seenUrls, fetchStep])
    obtain ⟨R0, hl0, hp0, -, -⟩ := foldl_loopBody_appends cfgs (inputs.take k)
      (initialState seen tr)
    rw [List.foldl_append] at hp1' ha1'
    rw [hp2'] at hp1'
    rw [ha2'] at ha1'
    rw [hF, List.foldl_append, List.foldl_cons, hp2, ha2]
    unfold forOf
    rw [hp1, ha1]
    simp only [initialState, List.nil_append] at hp1' ha1' hp0 ⊢
    constructor
    · rw [← hp1']
      simp only [loopBody_placeResults, fetchStep, hp0]
      have := eraseIdx_split R0 R2 (PlaceResult.error (orElse c.val.place "Unknown"))
      rw [hl0, hlen] at this
      simp only [List.append_assoc, List.singleton_append]
      rw [this]
    · rw [← ha1']
      simp only [loopBody_allNewJobs, fetchStep]

theorem truthy_iff (v : Option String) : truthy v = true ↔ ∃ s, v = some s ∧ s ≠ "" := by
  cases v with
  | none => simp [truthy]
  | some s => simp [truthy]

/-- A run with both credentials set, whose store initialises and loads,
reaches the loop and then the notification. -/
theorem main_of_loaded (env : Env) (w : World) (seen : List SeenRecord)
    (htok : truthy env.TELEGRAM_BOT_TOKEN = true) (hchat : truthy env.TELEGRAM_CHAT_ID = true)
    (hinit : w.init = Except.ok ()) (hseen : w.getSeenJobs = Except.ok seen) :
    main env w = sendAndPersist w (env.TELEGRAM_BOT_TOKEN.getD "")
      (env.TELEGRAM_CHAT_ID.getD "") (loopState env w seen) := by
  unfold main
  simp [htok, hchat, hinit, hseen]

/-- The events of a run that stops before the loop. -/
theorem main_of_not_loaded (env : Env) (w : World)
    (h : ¬ (truthy env.TELEGRAM_BOT_TOKEN = true ∧ truthy env.TELEGRAM_CHAT_ID = true ∧
      w.init = Except.ok () ∧ ∃ seen, w.getSeenJobs = Except.ok seen)) :
    (main env w).trace = [] ∨
    (main env w).trace = [Event.init false, Event.processExit 1] ∨
    (main env w).trace = [Event.init true, Event.getSeenJobs false] := by
  unfold main
  by_cases h1 : truthy env.TELEGRAM_BOT_TOKEN = true
  · by_cases h2 : truthy env.TELEGRAM_CHAT_ID = true
    · cases h3 : w.init with
      | error e => simp [h1, h2]
      | ok u =>
        cases h4 : w.getSeenJobs with
        | error e => simp [h1, h2]
        | ok seen => exact absurd ⟨h1, h2, h3, seen, h4⟩ h
    · simp [h2]
  · simp [h1]

/-- The events of the last two steps of `main`. -/
theorem sendAndPersist_trace (w : World) (token chatId : String) (st : LoopState) :
    (sendAndPersist w token chatId st).trace = st.trace ++
      Event.sendTelegramMessage token chatId
        (fullMessage w.now st.allNewJobs st.placeResults)
        (resolved (w.sendTelegramMessage token chatId
          (fullMessage w.now st.allNewJobs st.placeResults))) ::
      (if resolved (w.sendTelegramMessage token chatId
            (fullMessage w.now st.allNewJobs st.placeResults)) = true ∧ st.allNewJobs ≠ [] then
        [Event.addSeenJobs st.allNewJobs (resolved (w.addSeenJobs st.allNewJobs))]
      else []) := by
  unfold sendAndPersist
  simp only
  cases hs : w.sendTelegramMessage token chatId (fullMessage w.now st.allNewJobs st.placeResults) with
  | error e => simp [resolved]
  | ok u =>
    by_cases hne : st.allNewJobs = []
    · simp [resolved, hne]
    · have hlen : st.allNewJobs.length > 0 := List.length_pos.2 hne
      cases ha : w.addSeenJobs st.allNewJobs with
      | error e => simp [resolved, hne, hlen]
      | ok u => simp [resolved, hne, hlen]

/-- The events recorded when the loop of a run ends. -/
theorem loopState_trace (env : Env) (w : World) (seen : List SeenRecord) :
    ∃ T : List Event, (loopState env w seen).trace
        = [Event.init true, Event.getSeenJobs true] ++ T ∧
      T.filterMap Event.fetchedUrl = (loopInputs env w).map (fun x => x.1.val.url) ∧
      ∀ ev ∈ T, ev.isSend = false ∧ ev.isAddSeenJobs = false := by
  obtain ⟨T, ht, hf, hn⟩ := foldl_loopBody_trace ((loopInputs env w).map fun x => x.1)
    (loopInputs env w) (initialState seen [Event.init true, Event.getSeenJobs true])
  exact ⟨T, ht, hf, hn⟩

/-- C6.  In every run `addSeenJobs` is called if and only if the call of
`sendTelegramMessage` resolved and `allNewJobs` is not empty; it is called
at most once; when it is called, it is the last call of the run, it comes
right after the resolved send, and its argument is `allNewJobs`; and after a
rejected send it is not called. -/
theorem addSeenJobs_after_successful_send (env : Env) (w : World) :
    ((∃ J b, Event.addSeenJobs J b ∈ (main env w).trace) ↔
      (∃ tok chat text, Event.sendTelegramMessage tok chat text true ∈ (main env w).trace) ∧
      ∃ seen, w.getSeenJobs = Except.ok seen ∧ (loopState env w seen).allNewJobs ≠ []) ∧
    (main env w).trace.countP Event.isAddSeenJobs ≤ 1 ∧
    (∀ J b, Event.addSeenJobs J b ∈ (main env w).trace →
      ∃ seen pre tok chat text, w.getSeenJobs = Except.ok seen ∧
        J = (loopState env w seen).allNewJobs ∧
        (main env w).trace
          = pre ++ [Event.sendTelegramMessage tok chat text true, Event.addSeenJobs J b] ∧
        ∀ ev ∈ pre, ev.isSend = false ∧ ev.isAddSeenJobs = false) ∧
    ((∃ tok chat text, Event.sendTelegramMessage tok chat text false ∈ (main env w).trace) →
      ∀ J b, Event.addSeenJobs J b ∉ (main env w).trace) := by
  by_cases h : truthy env.TELEGRAM_BOT_TOKEN = true ∧ truthy env.TELEGRAM_CHAT_ID = true ∧
      w.init = Except.ok () ∧ ∃ seen, w.getSeenJobs = Except.ok seen
  · obtain ⟨htok, hchat, hinit, seen, hseen⟩ := h
    obtain ⟨T, hT, -, hn⟩ := loopState_trace env w seen
    have hTsend : ∀ a b c d, Event.sendTelegramMessage a b c d ∉ T := by
      intro a b c d hmem; have := (hn _ hmem).1; simp [Event.isSend] at this
    have hTadd : ∀ a b, Event.addSeenJobs a b ∉ T := by
      intro a b hmem; have := (hn _ hmem).2; simp [Event.isAddSeenJobs] at this
    have hcount : T.countP Event.isAddSeenJobs = 0 := by
      rw [List.countP_eq_zero]; intro ev hev; simp [(hn ev hev).2]
    rw [main_of_loaded env w seen htok hchat hinit hseen, sendAndPersist_trace, hT, hseen]
    by_cases hcond : resolved (w.sendTelegramMessage (env.TELEGRAM_BOT_TOKEN.getD "")
        (env.TELEGRAM_CHAT_ID.getD "") (fullMessage w.now (loopState env w seen).allNewJobs
          (loopState env w seen).placeResults)) = true ∧ (loopState env w seen).allNewJobs ≠ []
    · rw [if_pos hcond]
      refine ⟨?_, ?_, ?_, ?_⟩
      · constructor
        · intro _
          exact ⟨⟨_, _, _, List.mem_append_right _
            (by rw [hcond.1]; exact List.mem_cons_self _ _)⟩, seen, rfl, hcond.2⟩
        · intro _
          exact ⟨_, _, List.mem_append_right _
            (List.mem_cons_of_mem _ (List.mem_cons_self _ _))⟩
      · simp [List.countP_cons, hcount, Event.isAddSeenJobs]
      · intro J b hmem
        simp only [List.mem_append, List.mem_cons, List.mem_singleton, hTadd, List.not_mem_nil,
          or_false, false_or, Event.addSeenJobs.injEq] at hmem
        simp only [reduceCtorEq, false_or] at hmem
        obtain ⟨rfl, rfl⟩ := hmem
        refine ⟨seen, [Event.init true, Event.getSeenJobs true] ++ T,
          env.TELEGRAM_BOT_TOKEN.getD "", env.TELEGRAM_CHAT_ID.getD "",
          fullMessage w.now (loopState env w seen).allNewJobs (loopState env w seen).placeResults,
          rfl, rfl, ?_, ?_⟩
        · rw [hcond.1]
        · intro ev hev
          rcases List.mem_append.1 hev with h' | h'
          · simp only [List.mem_cons, List.mem_singleton, List.not_mem_nil, or_false] at h'
            rcases h' with rfl | rfl <;> simp [Event.isSend, Event.isAddSeenJobs]
          · exact hn ev h'
      · rintro ⟨tok, chat, text, hmem⟩
        simp only [List.mem_append, List.mem_cons, List.mem_singleton, hTsend, List.not_mem_nil,
          or_false, false_or, reduceCtorEq, Event.sendTelegramMessage.injEq, hcond.1] at hmem
        simp at hmem
    · rw [if_neg hcond]
      have hnone : ∀ J b, Event.addSeenJobs J b ∉
          [Event.init true, Event.getSeenJobs true] ++ T ++
            [Event.sendTelegramMessage (env.TELEGRAM_BOT_TOKEN.getD "")
              (env.TELEGRAM_CHAT_ID.getD "") (fullMessage w.now (loopState env w seen).allNewJobs
              (loopState env w seen).placeResults)
              (resolved (w.sendTelegramMessage (env.TELEGRAM_BOT_TOKEN.getD "")
                (env.TELEGRAM_CHAT_ID.getD "") (fullMessage w.now
                  (loopState env w seen).allNewJobs (loopState env w seen).placeResults)))] := by
        intro J b hmem
        simp only [List.mem_append, List.mem_cons, List.mem_singleton, hTadd, List.not_mem_nil,
          or_false, false_or, reduceCtorEq] at hmem
      refine ⟨?_, ?_, ?_, ?_⟩
      · constructor
        · rintro ⟨J, b, hmem⟩
          exact absurd hmem (hnone J b)
        · rintro ⟨⟨tok, chat, text, hmem⟩, seen', hseen', hne⟩
          exfalso
          simp only [List.mem_append, List.mem_cons, List.mem_singleton, hTsend,
            List.not_mem_nil, or_false, false_or, reduceCtorEq,
            Event.sendTelegramMessage.injEq] at hmem
          cases hseen'
          exact hcond ⟨hmem.2.2.2.symm, hne⟩
      · simp [List.countP_cons, List.countP_append, hcount, Event.isAddSeenJobs]
      · intro J b hmem
        exact absurd hmem (hnone J b)
      · intro _ J b hmem
        exact absurd hmem (hnone J b)
  · have hseenfalse : ¬ ((∃ tok chat text, Event.sendTelegramMessage tok chat text true ∈
        (main env w).trace)) := by
      rcases main_of_not_loaded env w h with h' | h' | h' <;> rw [h'] <;> simp
    have haddfalse : ∀ J b, Event.addSeenJobs J b ∉ (main env w).trace := by
      rcases main_of_not_loaded env w h with h' | h' | h' <;> rw [h'] <;> simp
    refine ⟨?_, ?_, ?_, ?_⟩
    · constructor
      · rintro ⟨J, b, hmem⟩; exact absurd hmem (haddfalse J b)
      · rintro ⟨hs, -⟩; exact absurd hs hseenfalse
    · rcases main_of_not_loaded env w h with h' | h' | h' <;> rw [h'] <;>
        simp [List.countP_cons, Event.isAddSeenJobs]
    · intro J b hmem; exact absurd hmem (haddfalse J b)
    · intro _ J b hmem; exact absurd hmem (haddfalse J b)

theorem allocate_map_val {α : Type} (vals : List α) :
    (allocate vals).map (fun o => o.val) = vals := by
  unfold allocate
  rw [List.map_map]
  exact List.enum_map_snd vals

/-- The targets of a run are the parsed entries, in order. -/
theorem loopInputs_map_val (env : Env) (w : World) :
    (loopInputs env w).map (fun x => x.1.val) = searchConfigs (SEARCH_URL env) := by
  unfold loopInputs
  rw [List.map_map]
  exact allocate_map_val _

theorem loopInputs_map_url (env : Env) (w : World) :
    (loopInputs env w).map (fun x => x.1.val.url)
      = (searchConfigs (SEARCH_URL env)).map fun c => c.url := by
  rw [← loopInputs_map_val env w, List.map_map]
  rfl

/-- C7.  In a run with both credentials set whose store initialises and
loads, `sendTelegramMessage` is called exactly once, after the loop has
fetched every target and recorded a result for each, with the joined
message lines as text; nothing is fetched or sent after it.  The statement
does not depend on how many postings are new nor on which fetches fail. -/
theorem notifier_called_once (env : Env) (w : World) (tok chat : String)
    (seen : List SeenRecord)
    (htok : env.TELEGRAM_BOT_TOKEN = some tok) (htok' : tok ≠ "")
    (hchat : env.TELEGRAM_CHAT_ID = some chat) (hchat' : chat ≠ "")
    (hinit : w.init = Except.ok ()) (hseen : w.getSeenJobs = Except.ok seen) :
    (main env w).trace.countP Event.isSend = 1 ∧
    (loopState env w seen).trace.filterMap Event.fetchedUrl
      = (searchConfigs (SEARCH_URL env)).map (fun c => c.url) ∧
    (loopState env w seen).placeResults.length = (searchConfigs (SEARCH_URL env)).length ∧
    ∃ post, (main env w).trace = (loopState env w seen).trace ++
        Event.sendTelegramMessage tok chat
          (fullMessage w.now (loopState env w seen).allNewJobs
            (loopState env w seen).placeResults)
          (resolved (w.sendTelegramMessage tok chat
            (fullMessage w.now (loopState env w seen).allNewJobs
              (loopState env w seen).placeResults))) :: post ∧
      ∀ ev ∈ post, ev.fetchedUrl = none ∧ ev.isSend = false := by
  have ht : truthy env.TELEGRAM_BOT_TOKEN = true := (truthy_iff _).2 ⟨tok, htok, htok'⟩
  have hc : truthy env.TELEGRAM_CHAT_ID = true := (truthy_iff _).2 ⟨chat, hchat, hchat'⟩
  obtain ⟨T, hT, hf, hn⟩ := loopState_trace env w seen
  have hcount : T.countP Event.isSend = 0 := by
    rw [List.countP_eq_zero]; intro ev hev; simp [(hn ev hev).1]
  have hmain := main_of_loaded env w seen ht hc hinit hseen
  rw [htok, hchat] at hmain
  simp only [Option.getD_some] at hmain
  rw [hmain, sendAndPersist_trace]
  refine ⟨?_, ?_, ?_, ?_⟩
  · rw [hT]
    split <;>
      simp [List.countP_cons, List.countP_append, hcount, Event.isSend]
  · rw [hT, ← loopInputs_map_url env w, ← hf]
    simp [Event.fetchedUrl]
  · obtain ⟨R, hl, hp, -, -⟩ := foldl_loopBody_appends ((loopInputs env w).map fun x => x.1)
      (loopInputs env w) (initialState seen [Event.init true, Event.getSeenJobs true])
    unfold loopState forOf
    rw [hp, ← loopInputs_map_val env w]
    simp [initialState, hl]
  · refine ⟨_, rfl, ?_⟩
    intro ev hev
    split at hev
    · simp only [List.mem_singleton] at hev
      subst hev
      simp [Event.fetchedUrl, Event.isSend]
    · simp at hev

/-- When every fetched url is already in `seenUrls`, the loop finds nothing
new. -/
theorem foldl_loopBody_all_seen (cfgs : List (Obj SearchConfig))
    (xs : List (Obj SearchConfig × Except String (List FetchedJob) × ℚ)) (st : LoopState)
    (h : ∀ x ∈ xs, ∀ L, x.2.1 = Except.ok L → ∀ f ∈ L, f.url ∈ st.seenUrls) :
    (xs.foldl (loopBody cfgs) st).allNewJobs = st.allNewJobs ∧
    ∀ res ∈ (xs.foldl (loopBody cfgs) st).placeResults,
      res ∈ st.placeResults ∨ res.jobs = [] := by
  induction xs generalizing st with
  | nil => exact ⟨rfl, fun res hres => Or.inl hres⟩
  | cons x xs ih =>
    have hfilter : ∀ L, x.2.1 = Except.ok L →
        (L.filter fun j => !setHas st.seenUrls j.url) = [] := by
      intro L hL
      rw [List.filter_eq_nil_iff]
      intro f hf
      simp [setHas, h x (List.mem_cons_self _ _) L hL f hf]
    have hseen : (loopBody cfgs st x).seenUrls = st.seenUrls := by
      rw [loopBody_seenUrls]
      cases hx : x.2.1 with
      | error e => simp [fetchStep]
      | ok L => simp [fetchStep, hfilter L hx]
    have hall : (loopBody cfgs st x).allNewJobs = st.allNewJobs := by
      rw [loopBody_allNewJobs]
      cases hx : x.2.1 with
      | error e => simp [fetchStep]
      | ok L => simp [fetchStep, hfilter L hx]
    have hres : ∀ res ∈ (loopBody cfgs st x).placeResults,
        res ∈ st.placeResults ∨ res.jobs = [] := by
      intro res hmem
      rw [loopBody_placeResults] at hmem
      cases hx : x.2.1 with
      | error e =>
        rw [hx] at hmem
        simp only [fetchStep, List.mem_append, List.mem_singleton] at hmem
        rcases hmem with hmem | rfl
        · exact Or.inl hmem
        · exact Or.inr rfl
      | ok L =>
        rw [hx] at hmem
        simp only [fetchStep, hfilter L hx, List.map_nil, List.mem_append,
          List.mem_singleton] at hmem
        rcases hmem with hmem | rfl
        · exact Or.inl hmem
        · exact Or.inr rfl
    obtain ⟨ha, hp⟩ := ih (loopBody cfgs st x) (by
      intro y hy L hL f hf
      rw [hseen]
      exact h y (List.mem_cons_of_mem _ hy) L hL f hf)
    simp only [List.foldl_cons]
    refine ⟨ha.trans hall, ?_⟩
    intro res hmem
    rcases hp res hmem with h' | h'
    · exact hres res h'
    · exact Or.inr h'

/-- A run that settles normally after the loop either found nothing new or
persisted `allNewJobs` successfully. -/
theorem sendAndPersist_returned (w : World) (token chatId : String) (st : LoopState)
    (h : (sendAndPersist w token chatId st).completion = Completion.returned) :
    st.allNewJobs = [] ∨
      Event.addSeenJobs st.allNewJobs true ∈ (sendAndPersist w token chatId st).trace := by
  unfold sendAndPersist at h ⊢
  simp only at h ⊢
  cases hs : w.sendTelegramMessage token chatId (fullMessage w.now st.allNewJobs st.placeResults) with
  | error e => rw [hs] at h; simp at h
  | ok u =>
    by_cases hne : st.allNewJobs = []
    · exact Or.inl hne
    · right
      have hlen : st.allNewJobs.length > 0 := List.length_pos.2 hne
      rw [hs] at h
      cases ha : w.addSeenJobs st.allNewJobs with
      | error e => rw [ha] at h; simp [hlen] at h
      | ok u => simp [hlen]

/-- C8.  Let a first run with both credentials set settle normally, and let
the store afterwards hold the urls it held before together with the urls of
every list passed to a resolved `addSeenJobs`.  A second run with the same
configuration and the same fetch outcomes then finds nothing new:
`allNewJobs` is empty, every element of `placeResults` lists no posting, and
`addSeenJobs` is not called. -/
theorem second_run_finds_nothing (env : Env) (w1 w2 : World) (seen1 seen2 : List SeenRecord)
    (htok : truthy env.TELEGRAM_BOT_TOKEN = true) (hchat : truthy env.TELEGRAM_CHAT_ID = true)
    (hget1 : w1.getSeenJobs = Except.ok seen1)
    (hdone : (main env w1).completion = Completion.returned)
    (hfetch : w2.fetchJobs = w1.fetchJobs)
    (hkeep : ∀ u ∈ seen1.map (fun s => s.url), u ∈ seen2.map fun s => s.url)
    (hadd : ∀ J, Event.addSeenJobs J true ∈ (main env w1).trace →
      ∀ u ∈ J.map (fun j => j.url), u ∈ seen2.map fun s => s.url) :
    (loopState env w2 seen2).allNewJobs = [] ∧
    (∀ res ∈ (loopState env w2 seen2).placeResults, res.jobs = []) ∧
    (w2.init = Except.ok () → w2.getSeenJobs = Except.ok seen2 →
      ∀ J b, Event.addSeenJobs J b ∉ (main env w2).trace) := by
  have hinit : w1.init = Except.ok () := by
    cases hi : w1.init with
    | error e =>
      unfold main at hdone
      simp [htok, hchat, hi] at hdone
    | ok u => rfl
  rw [main_of_loaded env w1 seen1 htok hchat hinit hget1] at hdone hadd
  have hnew : ∀ u ∈ (loopState env w1 seen1).allNewJobs.map (fun j => j.url),
      u ∈ seen2.map fun s => s.url := by
    rcases sendAndPersist_returned _ _ _ _ hdone with h | h
    · intro u hu; rw [h] at hu; simp at hu
    · exact hadd _ h
  -- every url fetched in the first run is known to the second
  have hall : ∀ x ∈ loopInputs env w2, ∀ L, x.2.1 = Except.ok L → ∀ f ∈ L,
      f.url ∈ (initialState seen2 [Event.init true, Event.getSeenJobs true]).seenUrls := by
    intro x hx L hL f hf
    simp only [initialState, mem_newSet]
    have hx1 : ∃ y ∈ loopInputs env w1, y.2.1 = x.2.1 := by
      unfold loopInputs at hx ⊢
      simp only [List.mem_map] at hx
      obtain ⟨c, hc, rfl⟩ := hx
      exact ⟨(c, w1.fetchJobs c.ref c.val.url, w1.random c.ref),
        List.mem_map.2 ⟨c, hc, rfl⟩, by simp [hfetch]⟩
    obtain ⟨y, hy, hyx⟩ := hx1
    have hmem : f.url ∈ (loopState env w1 seen1).seenUrls := by
      unfold loopState forOf
      rw [foldl_loopBody_seenUrls]
      exact Or.inr ⟨y, hy, L, hyx.trans hL, List.mem_map.2 ⟨f, hf, rfl⟩⟩
    obtain ⟨R, -, -, ha, hs⟩ := foldl_loopBody_appends ((loopInputs env w1).map fun x => x.1)
      (loopInputs env w1) (initialState seen1 [Event.init true, Event.getSeenJobs true])
    have hs' := (hs f.url).1 hmem
    rcases hs' with h | h
    · simp only [initialState, mem_newSet] at h
      exact hkeep _ h
    · apply hnew
      unfold loopState forOf
      rw [ha]
      simpa [initialState] using h
  obtain ⟨ha, hp⟩ := foldl_loopBody_all_seen ((loopInputs env w2).map fun x => x.1)
    (loopInputs env w2) (initialState seen2 [Event.init true, Event.getSeenJobs true]) hall
  have ha' : (loopState env w2 seen2).allNewJobs = [] := ha
  refine ⟨ha', ?_, ?_⟩
  · intro res hres
    rcases hp res hres with h | h
    · simp [initialState] at h
    · exact h
  · intro hinit2 hget2 J b hmem
    obtain ⟨T, hT, -, hn⟩ := loopState_trace env w2 seen2
    rw [main_of_loaded env w2 seen2 htok hchat hinit2 hget2, sendAndPersist_trace, hT,
      if_neg (fun hc => hc.2 ha')] at hmem
    simp only [List.mem_append, List.mem_cons, List.mem_singleton, List.not_mem_nil,
      or_false, reduceCtorEq, false_or] at hmem
    have := (hn _ hmem).2
    simp [Event.isAddSeenJobs] at this

theorem splitChars_ne_nil (sep : Char) (cs : List Char) : splitChars sep cs ≠ [] := by
  cases cs with
  | nil => simp [splitChars]
  | cons c cs =>
    unfold splitChars
    split
    · simp
    · split <;> simp

theorem splitChars_cons_sep (sep : Char) (cs : List Char) :
    splitChars sep (sep :: cs) = [] :: splitChars sep cs := by
  simp [splitChars]

theorem splitChars_cons_ne (sep c : Char) (cs : List Char) (h : c ≠ sep) :
    ∃ w ws, splitChars sep cs = w :: ws ∧ splitChars sep (c :: cs) = (c :: w) :: ws := by
  cases hs : splitChars sep cs with
  | nil => exact absurd hs (splitChars_ne_nil sep cs)
  | cons w ws => exact ⟨w, ws, rfl, by simp [splitChars, h, hs]⟩

/-- The number of pieces is the number of separators plus one. -/
theorem length_splitChars (sep : Char) (cs : List Char) :
    (splitChars sep cs).length = cs.count sep + 1 := by
  induction cs with
  | nil => simp [splitChars]
  | cons c cs ih =>
    by_cases h : c = sep
    · subst h; rw [splitChars_cons_sep]; simp [ih]
    · obtain ⟨w, ws, h1, h2⟩ := splitChars_cons_ne sep c cs h
      rw [h2, List.count_cons_of_ne (Ne.symm h), ← ih, h1]
      simp

/-- No piece contains the separator. -/
theorem not_mem_of_mem_splitChars (sep : Char) (cs : List Char) :
    ∀ p ∈ splitChars sep cs, sep ∉ p := by
  induction cs with
  | nil => simp [splitChars]
  | cons c cs ih =>
    by_cases h : c = sep
    · subst h; rw [splitChars_cons_sep]
      intro p hp
      rcases List.mem_cons.1 hp with rfl | hp
      · simp
      · exact ih p hp
    · obtain ⟨w, ws, h1, h2⟩ := splitChars_cons_ne sep c cs h
      rw [h2]
      rw [h1] at ih
      intro p hp
      rcases List.mem_cons.1 hp with rfl | hp
      · intro hmem
        rcases List.mem_cons.1 hmem with heq | hmem
        · exact h heq.symm
        · exact ih w (List.mem_cons_self _ _) hmem
      · exact ih p (List.mem_cons_of_mem _ hp)

/-- Joining the pieces with the separator gives the text back. -/
theorem intercalate_splitChars (sep : Char) (cs : List Char) :
    List.intercalate [sep] (splitChars sep cs) = cs := by
  induction cs with
  | nil => simp [splitChars, List.intercalate]
  | cons c cs ih =>
    by_cases h : c = sep
    · subst h; rw [splitChars_cons_sep]
      cases hs : splitChars c cs with
      | nil => exact absurd hs (splitChars_ne_nil c cs)
      | cons w ws =>
        rw [hs] at ih
        simp only [List.intercalate, List.intersperse, List.flatten] at ih ⊢
        simp [ih]
    · obtain ⟨w, ws, h1, h2⟩ := splitChars_cons_ne sep c cs h
      rw [h2]
      rw [h1] at ih
      cases ws with
      | nil =>
        simp only [List.intercalate, List.intersperse, List.flatten] at ih ⊢
        simpa using ih
      | cons v vs =>
        simp only [List.intercalate, List.intersperse, List.flatten] at ih ⊢
        simpa using ih

/-- The first piece is the text before the first separator. -/
theorem head_splitChars (sep : Char) (cs : List Char) :
    (splitChars sep cs)[0]? = some (cs.takeWhile fun c => c != sep) := by
  induction cs with
  | nil => simp [splitChars]
  | cons c cs ih =>
    by_cases h : c = sep
    · subst h; simp [splitChars_cons_sep]
    · obtain ⟨w, ws, h1, h2⟩ := splitChars_cons_ne sep c cs h
      rw [h1] at ih
      rw [h2]
      simp only [List.getElem?_cons_zero, Option.some.injEq] at ih ⊢
      simp [List.takeWhile_cons, h, ih]

/-- The rest of the pieces are those of the text after the first
separator. -/
theorem tail_splitChars (sep : Char) (cs : List Char) (h : sep ∈ cs) :
    (splitChars sep cs).tail
      = splitChars sep ((cs.dropWhile fun c => c != sep).tail) := by
  induction cs with
  | nil => simp at h
  | cons c cs ih =>
    by_cases hc : c = sep
    · subst hc; simp [splitChars_cons_sep, List.dropWhile_cons]
    · obtain ⟨w, ws, h1, h2⟩ := splitChars_cons_ne sep c cs hc
      have hmem : sep ∈ cs := by
        rcases List.mem_cons.1 h with h' | h'
        · exact absurd h'.symm hc
        · exact h'
      have := ih hmem
      rw [h1] at this
      rw [h2]
      simp only [List.tail_cons] at this ⊢
      simp [List.dropWhile_cons, hc, this]

/-- Without a separator there is a single piece. -/
theorem splitChars_of_not_mem (sep : Char) (cs : List Char) (h : sep ∉ cs) :
    splitChars sep cs = [cs] := by
  induction cs with
  | nil => simp [splitChars]
  | cons c cs ih =>
    have hc : c ≠ sep := fun heq => h (by simp [heq])
    have hcs : sep ∉ cs := fun hm => h (List.mem_cons_of_mem _ hm)
    simp [splitChars, hc, ih hcs]

theorem jsSplit_map_data (sep : Char) (s : String) :
    (jsSplit sep s).map String.data = splitChars sep s.data := by
  unfold jsSplit
  rw [List.map_map]
  exact List.map_id _

/-- The url of a parsed entry: the trimmed text before the first bar. -/
theorem parseEntry_url (entry : String) :
    (parseEntry entry).url = jsTrim ⟨entry.data.takeWhile fun c => c != '|'⟩ := by
  have hhead := head_splitChars '|' entry.data
  unfold parseEntry jsSplit
  cases hs : splitChars '|' entry.data with
  | nil => exact absurd hs (splitChars_ne_nil _ _)
  | cons w ws =>
    rw [hs] at hhead
    simp only [List.getElem?_cons_zero, Option.some.injEq] at hhead
    subst hhead
    cases ws with
    | nil => rfl
    | cons p ps => rfl

/-- An entry without a bar has no place. -/
theorem parseEntry_place_none (entry : String) (h : '|' ∉ entry.data) :
    (parseEntry entry).place = none := by
  unfold parseEntry jsSplit
  rw [splitChars_of_not_mem '|' entry.data h]
  rfl

/-- C9.  For every configuration string, `searchConfigs` has one target per
comma-separated entry, that is one more than the number of commas; the
entries are the comma-free pieces whose concatenation with commas is the
string; the target at position `i` has as url the trimmed text of the entry
at position `i` before its first bar, and its place is `null` when the
entry contains no bar. -/
theorem searchConfigs_one_per_entry (s : String) :
    (searchConfigs s).length = s.data.count ',' + 1 ∧
    (jsSplit ',' s).length = (searchConfigs s).length ∧
    List.intercalate [','] ((jsSplit ',' s).map String.data) = s.data ∧
    (∀ entry ∈ jsSplit ',' s, ',' ∉ entry.data) ∧
    ∀ (i : Nat) (entry : String), (jsSplit ',' s)[i]? = some entry →
      ∃ t : SearchConfig, (searchConfigs s)[i]? = some t ∧
        t.url = jsTrim ⟨entry.data.takeWhile fun c => c != '|'⟩ ∧
        ('|' ∉ entry.data → t.place = none) := by
  refine ⟨?_, ?_, ?_, ?_, ?_⟩
  · simp [searchConfigs, jsSplit, length_splitChars]
  · simp [searchConfigs]
  · rw [jsSplit_map_data, intercalate_splitChars]
  · intro entry hentry
    have : entry.data ∈ (jsSplit ',' s).map String.data := List.mem_map.2 ⟨entry, hentry, rfl⟩
    rw [jsSplit_map_data] at this
    exact not_mem_of_mem_splitChars ',' s.data _ this
  · intro i entry hentry
    refine ⟨parseEntry entry, ?_, parseEntry_url entry, parseEntry_place_none entry⟩
    simp [searchConfigs, hentry]

/-- C10, amended.  For an entry that contains a bar, the place is the
trimmed text between the first bar and the next bar (or the end of the
entry when there is no other), and `null` when that text is empty. -/
theorem place_between_first_two_bars (entry : String) (h : '|' ∈ entry.data) :
    (parseEntry entry).place =
      if ((entry.data.dropWhile fun c => c != '|').tail.takeWhile fun c => c != '|') = [] then
        none
      else
        some (jsTrim ⟨(entry.data.dropWhile fun c => c != '|').tail.takeWhile
          fun c => c != '|'⟩) := by
  have htail := tail_splitChars '|' entry.data h
  have hhead := head_splitChars '|' ((entry.data.dropWhile fun c => c != '|').tail)
  unfold parseEntry jsSplit
  cases hs : splitChars '|' entry.data with
  | nil => exact absurd hs (splitChars_ne_nil _ _)
  | cons w ws =>
    rw [hs] at htail
    simp only [List.tail_cons] at htail
    rw [← htail] at hhead
    cases ws with
    | nil => simp at hhead
    | cons p ps =>
      simp only [List.getElem?_cons_zero, Option.some.injEq] at hhead
      rw [← hhead]
      simp only [List.map_cons]
      by_cases hp : p = []
      · subst hp; rfl
      · have hne : (String.mk p != "") = true := by
          simp only [bne_iff_ne, ne_eq]
          intro heq
          exact hp (congrArg String.data heq)
        simp [hne, hp]

/-- A run over three targets: the last one fetches `x` and `y`; `x` was
recorded for the first target, so only `y` is recorded for the last. -/
theorem new_postings_of_target_witness :
    demoInputs[2]? = some ({ ref := 2, val := { url := "c", place := some "C" } },
      Except.ok [{ title := "t1", url := "x" }, { title := "t2", url := "y" }], 0) ∧
    (forOf demoInputs (initialState demoSeen [])).placeResults[2]? =
      some (PlaceResult.ok "C" [{ title := "t2", url := "y", place := some "C" }]) :=
  ⟨rfl, (new_postings_of_target demoSeen [] demoInputs 2 _ _ _ rfl).1.trans (by decide)⟩

/-- A fetched list that holds the url `x` twice, with an empty store: both
postings enter `allNewJobs` and are passed to `addSeenJobs`. -/
theorem allNewJobs_duplicate_url :
    (loopState demoEnv dupWorld []).allNewJobs =
      [{ title := "t1", url := "x", place := some "A" },
        { title := "t2", url := "x", place := some "A" }] ∧
    ¬ ((loopState demoEnv dupWorld []).allNewJobs.map fun j => j.url).Nodup ∧
    Event.addSeenJobs [{ title := "t1", url := "x", place := some "A" },
        { title := "t2", url := "x", place := some "A" }] true ∈ (main demoEnv dupWorld).trace := by
  decide

/-- The fetched lists of the three-target run hold no url twice, and its
`allNewJobs` holds none twice. -/
theorem allNewJobs_nodup_witness :
    (∀ x ∈ demoInputs, ∀ L, x.2.1 = Except.ok L → (L.map fun j => j.url).Nodup) ∧
    ((forOf demoInputs (initialState demoSeen [])).allNewJobs.map fun j => j.url).Nodup :=
  have h : ∀ x ∈ demoInputs, ∀ L, x.2.1 = Except.ok L → (L.map fun j => j.url).Nodup := by
    intro x hx L hL
    simp only [demoInputs, List.mem_cons, List.mem_singleton, List.not_mem_nil, or_false] at hx
    rcases hx with rfl | rfl | rfl
    · cases hL; decide
    · cases hL
    · cases hL; decide
  ⟨h, allNewJobs_nodup demoSeen [] demoInputs h⟩

/-- Three targets that all return the url `x`, with an empty store: the
second and the third both fetch successfully and both return `x`, yet the
result of the second does not list it. -/
theorem shared_url_absent_from_middle_target :
    tripleWorld.fetchJobs 1 "b" = Except.ok [{ title := "t", url := "x" }] ∧
    tripleWorld.fetchJobs 2 "c" = Except.ok [{ title := "t", url := "x" }] ∧
    (searchConfigs (SEARCH_URL tripleEnv)).map (fun c => c.url) = ["a", "b", "c"] ∧
    (loopState tripleEnv tripleWorld []).placeResults =
      [PlaceResult.ok "A" [{ title := "t", url := "x", place := some "A" }],
        PlaceResult.ok "B" [], PlaceResult.ok "C" []] :=
  ⟨rfl, rfl, by decide, by decide⟩

/-- In the three-target run the url `x`, returned for the first and for
the last target, is not listed in the result of the last. -/
theorem shared_url_reported_once_witness :
    (0 < 2 ∧ "x" ∈ [("t0" : String), "x"] ∧ "x" ∉ demoSeen.map fun s => s.url) ∧
    (∃ resj, (forOf demoInputs (initialState demoSeen [])).placeResults[2]? = some resj ∧
      "x" ∉ resj.jobs.map fun p => p.url) :=
  ⟨⟨by decide, by decide, by decide⟩,
    (shared_url_reported_once demoSeen [] demoInputs 0 2 _ _ _ _ 0 0 "x" (by decide)
      (show demoInputs[0]? = some ({ ref := 0, val := { url := "a", place := some "A" } },
        Except.ok [{ title := "t0", url := "s" }, { title := "t1", url := "x" }], 0) from rfl)
      (show demoInputs[2]? = some ({ ref := 2, val := { url := "c", place := some "C" } },
        Except.ok [{ title := "t1", url := "x" }, { title := "t2", url := "y" }], 0) from rfl)
      (by decide) (by decide)).1⟩

/-- In the three-target run the second fetch fails and its result is the
error result labelled `Unknown`. -/
theorem fetch_failure_isolated_witness :
    demoInputs[1]? = some ({ ref := 1, val := { url := "b", place := none } },
      Except.error "boom", 0) ∧
    (forOf demoInputs (initialState demoSeen [])).placeResults[1]? =
      some (PlaceResult.error "Unknown") :=
  ⟨rfl, (fetch_failure_isolated demoSeen [] demoInputs 1 _ "boom" 0 rfl).2.2.1⟩

/-- A run with one target in a world where every call succeeds sends
exactly one message. -/
theorem notifier_called_once_witness :
    (demoEnv.TELEGRAM_BOT_TOKEN = some "tok" ∧ demoEnv.TELEGRAM_CHAT_ID = some "chat" ∧
      demoWorld.init = Except.ok () ∧ demoWorld.getSeenJobs = Except.ok demoSeen) ∧
    (main demoEnv demoWorld).trace.countP Event.isSend = 1 :=
  ⟨⟨rfl, rfl, rfl, rfl⟩,
    (notifier_called_once demoEnv demoWorld "tok" "chat" demoSeen rfl (by decide) rfl
      (by decide) rfl rfl).1⟩

/-- A run that reports `x` and persists it, followed by a run against the
updated store, which finds nothing new. -/
theorem second_run_finds_nothing_witness :
    (main demoEnv demoWorld).completion = Completion.returned ∧
    (loopState demoEnv demoWorldAfter [{ url := "s" }, { url := "x" }]).allNewJobs = [] :=
  have hdone : (main demoEnv demoWorld).completion = Completion.returned := by decide
  ⟨hdone,
    (second_run_finds_nothing demoEnv demoWorld demoWorldAfter demoSeen
      [{ url := "s" }, { url := "x" }] (by decide) (by decide) rfl hdone rfl (by decide)
      (by
        intro J hJ
        have ht : (main demoEnv demoWorld).trace.filter Event.isAddSeenJobs =
            [Event.addSeenJobs [{ title := "t1", url := "x", place := some "A" }] true] := by
          decide
        have hmem : Event.addSeenJobs J true ∈
            (main demoEnv demoWorld).trace.filter Event.isAddSeenJobs :=
          List.mem_filter.2 ⟨hJ, rfl⟩
        rw [ht] at hmem
        simp only [List.mem_singleton, Event.addSeenJobs.injEq, and_true] at hmem
        subst hmem
        decide)).1⟩

/-- The entry `u|P|Q`: the place is `P`, not the text `P|Q` after the first
bar. -/
theorem place_stops_at_second_bar :
    '|' ∈ "u|P|Q".data ∧
    (parseEntry "u|P|Q").place = some "P" ∧
    (parseEntry "u|P|Q").place
      ≠ some (jsTrim ⟨("u|P|Q".data.dropWhile fun c => c != '|').tail⟩) := by
  decide

/-- The entry `u|P|Q` contains a bar and its place is `P`. -/
theorem place_between_first_two_bars_witness :
    '|' ∈ "u|P|Q".data ∧ (parseEntry "u|P|Q").place = some "P" :=
  ⟨by decide, (place_between_first_two_bars "u|P|Q" (by decide)).trans (by decide)⟩

/-- The place of a parsed entry is `null` or the trimmed text of a non-empty
piece of the entry. -/
theorem parseEntry_place_cases (entry : String) :
    (parseEntry entry).place = none ∨
      ∃ piece ∈ jsSplit '|' entry, piece ≠ "" ∧ (parseEntry entry).place = some (jsTrim piece) := by
  unfold parseEntry
  cases hs : jsSplit '|' entry with
  | nil => exact Or.inl rfl
  | cons url rest =>
    cases rest with
    | nil => exact Or.inl rfl
    | cons place more =>
      by_cases hp : place = ""
      · left; simp [hp]
      · right
        refine ⟨place, by simp, hp, ?_⟩
        simp [hp]

/-- The label of the result of a target, whatever the outcome of its
fetch. -/
theorem result_label (seen : List SeenRecord) (tr : List Event)
    (inputs : List (Obj SearchConfig × Except String (List FetchedJob) × ℚ)) (i : Nat)
    (c : Obj SearchConfig) (oc : Except String (List FetchedJob)) (r : ℚ)
    (hi : inputs[i]? = some (c, oc, r)) :
    ∃ res, (forOf inputs (initialState seen tr)).placeResults[i]? = some res ∧
      res.isError = !resolved oc ∧
      res.place = orElse c.val.place (if resolved oc = true then "Naukri" else "Unknown") := by
  obtain ⟨hsplit, hlen⟩ := getElem?_split inputs i _ hi
  cases oc with
  | error e =>
    have h := result_of_error_target (inputs.map fun x => x.1) (inputs.take i)
      (inputs.drop (i + 1)) c e r seen tr
    rw [← hsplit, hlen] at h
    exact ⟨_, h, rfl, rfl⟩
  | ok L =>
    have h := result_of_ok_target (inputs.map fun x => x.1) (inputs.take i)
      (inputs.drop (i + 1)) c L r seen tr
    rw [← hsplit, hlen] at h
    exact ⟨_, h, rfl, rfl⟩

/-- C11, amended.  The label of the result of a target is `target.place`
whenever that place is neither `null` nor the empty string, and the default
label (`Naukri` after a successful fetch, `Unknown` after a failed one) when
the place is `null` or empty; the result is an error result exactly when the
fetch failed.  The parser substitutes no default: the place it yields is
`null` or the trimmed text of a non-empty piece of the entry. -/
theorem place_label_default (seen : List SeenRecord) (tr : List Event)
    (inputs : List (Obj SearchConfig × Except String (List FetchedJob) × ℚ)) (i : Nat)
    (c : Obj SearchConfig) (oc : Except String (List FetchedJob)) (r : ℚ)
    (hi : inputs[i]? = some (c, oc, r)) :
    (∃ res, (forOf inputs (initialState seen tr)).placeResults[i]? = some res ∧
      res.isError = !resolved oc ∧
      (∀ p, c.val.place = some p → p ≠ "" → res.place = p) ∧
      (c.val.place = none ∨ c.val.place = some "" →
        res.place = if resolved oc = true then "Naukri" else "Unknown")) ∧
    ∀ entry : String, (parseEntry entry).place = none ∨
      ∃ piece ∈ jsSplit '|' entry, piece ≠ "" ∧
        (parseEntry entry).place = some (jsTrim piece) := by
  refine ⟨?_, parseEntry_place_cases⟩
  obtain ⟨res, hres, herr, hplace⟩ := result_label seen tr inputs i c oc r hi
  refine ⟨res, hres, herr, ?_, ?_⟩
  · intro p hp hne
    rw [hplace, hp]
    simp [orElse, hne]
  · rintro (h | h) <;> rw [hplace, h] <;> simp [orElse]

/-- The entry `u| `: the parsed place is the empty string, not `null`, yet
the label is `Naukri` after a successful fetch and `Unknown` after a failed
one. -/
theorem empty_place_gets_default_label :
    searchConfigs (SEARCH_URL blankPlaceEnv) = [{ url := "u", place := some "" }] ∧
    (loopState blankPlaceEnv demoWorld demoSeen).placeResults =
      [PlaceResult.ok "Naukri" [{ title := "t1", url := "x", place := some "" }]] ∧
    (loopState blankPlaceEnv failWorld demoSeen).placeResults =
      [PlaceResult.error "Unknown"] := by
  decide

/-- In the three-target run the first target has place `A` and its result
carries the label `A`. -/
theorem place_label_default_witness :
    demoInputs[0]? = some ({ ref := 0, val := { url := "a", place := some "A" } },
      Except.ok [{ title := "t0", url := "s" }, { title := "t1", url := "x" }], 0) ∧
    ∃ res, (forOf demoInputs (initialState demoSeen [])).placeResults[0]? = some res ∧
      res.place = "A" :=
  ⟨rfl, by
    obtain ⟨res, hres, -, hp, -⟩ := (place_label_default demoSeen [] demoInputs 0
      { ref := 0, val := { url := "a", place := some "A" } }
      (Except.ok [{ title := "t0", url := "s" }, { title := "t1", url := "x" }]) 0 rfl).1
    exact ⟨res, hres, hp "A" rfl (by decide)⟩⟩

/-- Searching an object among objects allocated at consecutive addresses
finds it at the position of its address. -/
theorem indexOfFrom_enumFrom {α : Type} (vals : List α) (k start : Nat) (o : Obj α)
    (h1 : k ≤ o.ref) (h2 : o.ref < k + vals.length) :
    indexOfFrom o ((vals.enumFrom k).map fun p => ({ ref := p.1, val := p.2 } : Obj α)) start
      = ((start + (o.ref - k) : Nat) : Int) := by
  induction vals generalizing k start with
  | nil => simp at h2; omega
  | cons v vs ih =>
    simp only [List.enumFrom_cons, List.map_cons, indexOfFrom]
    by_cases hk : k = o.ref
    · simp [hk]
    · rw [if_neg hk, ih (k + 1) (start + 1) (by omega) (by simp at h2; omega)]
      congr 1
      omega

theorem indexOf_allocate {α : Type} (vals : List α) (o : Obj α) (h : o.ref < vals.length) :
    indexOf (allocate vals) o = (o.ref : Int) := by
  unfold indexOf allocate List.enum
  rw [indexOfFrom_enumFrom vals 0 0 o (Nat.zero_le _) (by omega)]
  simp

/-- The events of the loop, iteration by iteration. -/
theorem foldl_loopBody_trace_eq (cfgs : List (Obj SearchConfig))
    (xs : List (Obj SearchConfig × Except String (List FetchedJob) × ℚ)) (st : LoopState) :
    (xs.foldl (loopBody cfgs) st).trace = st.trace ++ xs.flatMap fun x =>
      Event.fetchJobs x.1.val.url (resolved x.2.1) ::
        (if indexOf cfgs x.1 < (cfgs.length : Int) - 1 then
          [Event.setTimeout (randomDelay x.2.2)] else []) := by
  induction xs generalizing st with
  | nil => simp
  | cons x xs ih =>
    simp only [List.foldl_cons, ih, List.flatMap_cons]
    have hstep : (loopBody cfgs st x).trace = st.trace ++
        (Event.fetchJobs x.1.val.url (resolved x.2.1) ::
          (if indexOf cfgs x.1 < (cfgs.length : Int) - 1 then
            [Event.setTimeout (randomDelay x.2.2)] else [])) := by
      unfold loopBody
      simp only
      split <;> cases hx : x.2.1 <;> simp [fetchStep, resolved]
    rw [hstep, List.append_assoc]

/-- The events of the loop of a run: for each target, in order, the call
of `fetchJobs`, followed by a pacing delay unless the target is the last. -/
theorem loopState_trace_eq (env : Env) (w : World) (seen : List SeenRecord) :
    (loopState env w seen).trace = [Event.init true, Event.getSeenJobs true] ++
      (searchConfigs (SEARCH_URL env)).enum.flatMap fun p =>
        Event.fetchJobs p.2.url (resolved (w.fetchJobs p.1 p.2.url)) ::
          (if p.1 + 1 < (searchConfigs (SEARCH_URL env)).length then
            [Event.setTimeout (randomDelay (w.random p.1))] else []) := by
  unfold loopState forOf
  rw [foldl_loopBody_trace_eq]
  simp only [initialState]
  congr 1
  have hcfg : (loopInputs env w).map (fun x => x.1) = allocate (searchConfigs (SEARCH_URL env)) := by
    unfold loopInputs
    rw [List.map_map]
    exact List.map_id _
  rw [hcfg]
  unfold loopInputs allocate
  rw [List.map_map, List.flatMap_map]
  apply List.flatMap_congr
  intro p hp
  have hlt : p.1 < (searchConfigs (SEARCH_URL env)).length := List.fst_lt_of_mem_enum hp
  have hidx := indexOf_allocate (searchConfigs (SEARCH_URL env))
    ({ ref := p.1, val := p.2 } : Obj SearchConfig) hlt
  unfold allocate at hidx
  simp only [Function.comp, hidx, List.length_map, List.enum_length]
  congr 1
  by_cases h : p.1 + 1 < (searchConfigs (SEARCH_URL env)).length
  · rw [if_pos h, if_pos (by omega)]
  · rw [if_neg h, if_neg (by omega)]

/-- Counting the delays of a run of consecutive iterations of which the
last is the last of the loop. -/
theorem countP_setTimeout_enumFrom (l : List SearchConfig) (k n : Nat) (hn : n = k + l.length)
    (f : Nat × SearchConfig → Event) (g : Nat → Event)
    (hf : ∀ p, (f p).isSetTimeout = false) (hg : ∀ i, (g i).isSetTimeout = true) :
    ((l.enumFrom k).flatMap fun p =>
      f p :: (if p.1 + 1 < n then [g p.1] else [])).countP Event.isSetTimeout
      = l.length - 1 ∧
    ∀ ev, ((l.enumFrom k).flatMap fun p =>
      f p :: (if p.1 + 1 < n then [g p.1] else [])).getLast? = some ev →
      ev.isSetTimeout = false := by
  induction l generalizing k with
  | nil => simp
  | cons a l ih =>
    obtain ⟨ih1, ih2⟩ := ih (k + 1) (by simp at hn; omega)
    simp only [List.enumFrom_cons, List.flatMap_cons]
    cases l with
    | nil =>
      have hk : ¬ (k + 1 < n) := by simp at hn; omega
      simp [hk, hf, List.countP_cons]
    | cons b l =>
      have hk : k + 1 < n := by simp at hn; omega
      constructor
      · rw [List.countP_append, ih1]
        simp [hk, hf, hg, List.countP_cons]
        omega
      · intro ev hev
        apply ih2 ev
        rw [List.getLast?_append] at hev
        simp only [List.enumFrom_cons, List.flatMap_cons, List.cons_append] at hev ⊢
        cases hlast : (f (k + 1, b) :: ((if k + 1 + 1 < n then [g (k + 1)] else []) ++
            (List.enumFrom (k + 1 + 1) l).flatMap fun p =>
              f p :: (if p.1 + 1 < n then [g p.1] else []))).getLast? with
        | none => simp at hlast
        | some e =>
          rw [hlast] at hev
          simpa using hev

/-- C13.  In a run with both credentials set whose store initialises and
loads, with `n` targets (`n` is at least one): the loop calls `fetchJobs`
for each target in order and, after each target but the last, whatever the
outcome of its fetch, suspends for one pacing delay; so the run performs
exactly `n - 1` delays, none after the final target.  Targets are told
apart by their position, so entries with the same text change nothing. -/
theorem pacing_delays (env : Env) (w : World) (seen : List SeenRecord)
    (htok : truthy env.TELEGRAM_BOT_TOKEN = true) (hchat : truthy env.TELEGRAM_CHAT_ID = true)
    (hinit : w.init = Except.ok ()) (hseen : w.getSeenJobs = Except.ok seen) :
    1 ≤ (searchConfigs (SEARCH_URL env)).length ∧
    (loopState env w seen).trace = [Event.init true, Event.getSeenJobs true] ++
      (searchConfigs (SEARCH_URL env)).enum.flatMap (fun p =>
        Event.fetchJobs p.2.url (resolved (w.fetchJobs p.1 p.2.url)) ::
          (if p.1 + 1 < (searchConfigs (SEARCH_URL env)).length then
            [Event.setTimeout (randomDelay (w.random p.1))] else [])) ∧
    (∀ ev, (loopState env w seen).trace.getLast? = some ev → ev.isSetTimeout = false) ∧
    (main env w).trace.countP Event.isSetTimeout
      = (searchConfigs (SEARCH_URL env)).length - 1 := by
  have hlen : 1 ≤ (searchConfigs (SEARCH_URL env)).length := by
    simp [searchConfigs, jsSplit, length_splitChars]
  have htr := loopState_trace_eq env w seen
  obtain ⟨hcount, hlast⟩ := countP_setTimeout_enumFrom (searchConfigs (SEARCH_URL env)) 0
    (searchConfigs (SEARCH_URL env)).length (by simp)
    (fun p => Event.fetchJobs p.2.url (resolved (w.fetchJobs p.1 p.2.url)))
    (fun i => Event.setTimeout (randomDelay (w.random i)))
    (fun _ => rfl) (fun _ => rfl)
  have hne : (searchConfigs (SEARCH_URL env)).enum.flatMap (fun p =>
        Event.fetchJobs p.2.url (resolved (w.fetchJobs p.1 p.2.url)) ::
          (if p.1 + 1 < (searchConfigs (SEARCH_URL env)).length then
            [Event.setTimeout (randomDelay (w.random p.1))] else [])) ≠ [] := by
    cases hl : searchConfigs (SEARCH_URL env) with
    | nil => rw [hl] at hlen; simp at hlen
    | cons a l => simp [List.enum, List.enumFrom_cons]
  refine ⟨hlen, htr, ?_, ?_⟩
  · intro ev hev
    rw [htr, List.getLast?_append_of_ne_nil _ hne] at hev
    exact hlast ev hev
  · have hc : List.countP Event.isSetTimeout ((searchConfigs (SEARCH_URL env)).enum.flatMap
        (fun p => Event.fetchJobs p.2.url (resolved (w.fetchJobs p.1 p.2.url)) ::
          (if p.1 + 1 < (searchConfigs (SEARCH_URL env)).length then
            [Event.setTimeout (randomDelay (w.random p.1))] else [])))
        = (searchConfigs (SEARCH_URL env)).length - 1 := hcount
    rw [main_of_loaded env w seen htok hchat hinit hseen, sendAndPersist_trace, htr,
      List.countP_append, List.countP_append, hc]
    have h0 : List.countP Event.isSetTimeout [Event.init true, Event.getSeenJobs true] = 0 :=
      rfl
    rw [h0, List.countP_eq_zero.2]
    · omega
    · intro ev hev
      rcases List.mem_cons.1 hev with rfl | hev
      · simp [Event.isSetTimeout]
      · split at hev
        · simp only [List.mem_singleton] at hev
          subst hev
          simp [Event.isSetTimeout]
        · simp at hev

/-- Two entries with the same text: the run still suspends exactly once,
between the two fetches. -/
theorem pacing_delays_witness :
    (main twinEnv demoWorld).trace.countP Event.isSetTimeout = 1 ∧
    (loopState twinEnv demoWorld demoSeen).trace.map Event.isSetTimeout
      = [false, false, false, true, false] :=
  ⟨(pacing_delays twinEnv demoWorld demoSeen (by decide) (by decide) rfl rfl).2.2.2.trans
    (by decide), by decide⟩

/-- The characters of a joined text. -/
theorem intercalate_go_data (sep acc : String) (l : List String) :
    (String.intercalate.go acc sep l).data
      = acc.data ++ (l.flatMap fun a => sep.data ++ a.data) := by
  induction l generalizing acc with
  | nil => simp [String.intercalate.go]
  | cons a l ih => simp [String.intercalate.go, ih, List.append_assoc]

theorem intercalate_data (sep : String) (l : List String) :
    (sep.intercalate l).data = List.intercalate sep.data (l.map String.data) := by
  cases l with
  | nil => rfl
  | cons a l =>
    simp only [String.intercalate, intercalate_go_data, List.map_cons]
    induction l generalizing a with
    | nil => simp [List.intercalate]
    | cons b l ih =>
      have := ih b
      simp only [List.intercalate, List.intersperse, List.flatten, List.flatMap_cons,
        List.map_cons] at this ⊢
      simp only [List.append_assoc]
      rw [this]

/-- C14.  For every list of results, the first line of the message is the
alert line stating the count when the number of new postings is positive
and the fixed line `✅ *Naukri Job Alert* - No new jobs found` when it is
zero; the second line is the time stamp line; the third line is empty; for
each errored result the message contains the error-marker line of its
place; and the text sent is the lines joined with newline characters. -/
theorem report_header (now : String) (allNewJobs : List Job)
    (placeResults : List PlaceResult) :
    (messageLines now allNewJobs placeResults)[0]? =
      some (if allNewJobs.length > 0 then
        "🔔 *Naukri Job Alert* - " ++ toString allNewJobs.length ++ " new job(s) found!"
      else "✅ *Naukri Job Alert* - No new jobs found") ∧
    (messageLines now allNewJobs placeResults)[1]? = some ("⏰ _" ++ now ++ "_") ∧
    (messageLines now allNewJobs placeResults)[2]? = some "" ∧
    (∀ place, PlaceResult.error place ∈ placeResults →
      "*" ++ place ++ "* - ERROR NAUKRI ⚠️" ∈ messageLines now allNewJobs placeResults) ∧
    (fullMessage now allNewJobs placeResults).data =
      List.intercalate ['\n'] ((messageLines now allNewJobs placeResults).map String.data) := by
  refine ⟨by simp [messageLines], by simp [messageLines], by simp [messageLines], ?_, ?_⟩
  · intro place hplace
    unfold messageLines
    apply List.mem_append_right
    rw [List.mem_flatMap]
    exact ⟨_, hplace, by simp [resultLines]⟩
  · unfold fullMessage
    exact intercalate_data "\n" _

/-- C15.  The block of a successful result with a non-empty job list is a
header line naming the place, then one line per posting in the order of
the job list, the line of the posting at position `k` (from 0) being
`k+1) [title](url)`, then the separator; a successful result with an empty
job list yields the single line `*place* - No New Jobs Found 📉` and the
separator. -/
theorem result_block (place : String) (jobs : List Job) :
    (jobs ≠ [] →
      resultLines (PlaceResult.ok place jobs) =
        ("*" ++ place ++ "* -") ::
          (jobs.enum.map fun p =>
            toString (p.1 + 1) ++ ") [" ++ p.2.title ++ "](" ++ p.2.url ++ ")") ++ [""] ∧
      (resultLines (PlaceResult.ok place jobs)).length = jobs.length + 2 ∧
      ∀ (k : Nat) (job : Job), jobs[k]? = some job →
        (resultLines (PlaceResult.ok place jobs))[k + 1]? =
          some (toString (k + 1) ++ ") [" ++ job.title ++ "](" ++ job.url ++ ")")) ∧
    resultLines (PlaceResult.ok place []) = ["*" ++ place ++ "* - No New Jobs Found 📉", ""] := by
  refine ⟨?_, rfl⟩
  intro hne
  have hlen : jobs.length > 0 := List.length_pos.2 hne
  have hblock : resultLines (PlaceResult.ok place jobs) =
      ("*" ++ place ++ "* -") ::
        (jobs.enum.map fun p =>
          toString (p.1 + 1) ++ ") [" ++ p.2.title ++ "](" ++ p.2.url ++ ")") ++ [""] := by
    simp [resultLines, hlen]
  refine ⟨hblock, ?_, ?_⟩
  · rw [hblock]; simp
  · intro k job hk
    have hk' : k < jobs.length := by
      by_contra hc
      rw [List.getElem?_eq_none (by omega)] at hk
      cases hk
    rw [hblock, List.cons_append, List.getElem?_cons_succ,
      List.getElem?_append_left (by simpa using hk'), List.getElem?_map, List.getElem?_enum, hk]
    rfl

/-- The input of the iteration at position `i`. -/
theorem loopInputs_getElem? (env : Env) (w : World) (i : Nat) (c : SearchConfig)
    (h : (searchConfigs (SEARCH_URL env))[i]? = some c) :
    (loopInputs env w)[i]? =
      some ({ ref := i, val := c }, w.fetchJobs i c.url, w.random i) := by
  unfold loopInputs allocate
  simp [List.getElem?_map, List.getElem?_enum, h]

/-- C16.  A run records exactly one result per target; the result at
position `i` belongs to the target at position `i`: it is an error result
exactly when the fetch of that target failed, and it carries the label of
that target.  The message lines are the three header lines followed by the
blocks of the results in their order, and the text sent is these lines
joined with newline characters. -/
theorem one_result_per_target (env : Env) (w : World) (seen : List SeenRecord) :
    (loopState env w seen).placeResults.length = (searchConfigs (SEARCH_URL env)).length ∧
    (∀ (i : Nat) (c : SearchConfig), (searchConfigs (SEARCH_URL env))[i]? = some c →
      ∃ res, (loopState env w seen).placeResults[i]? = some res ∧
        res.isError = !resolved (w.fetchJobs i c.url) ∧
        res.place = orElse c.place
          (if resolved (w.fetchJobs i c.url) = true then "Naukri" else "Unknown")) ∧
    messageLines w.now (loopState env w seen).allNewJobs (loopState env w seen).placeResults =
      [ if (loopState env w seen).allNewJobs.length > 0 then
          "🔔 *Naukri Job Alert* - " ++ toString (loopState env w seen).allNewJobs.length ++
            " new job(s) found!"
        else "✅ *Naukri Job Alert* - No new jobs found",
        "⏰ _" ++ w.now ++ "_", "" ] ++
      (loopState env w seen).placeResults.flatMap resultLines ∧
    (fullMessage w.now (loopState env w seen).allNewJobs
        (loopState env w seen).placeResults).data =
      List.intercalate ['\n'] ((messageLines w.now (loopState env w seen).allNewJobs
        (loopState env w seen).placeResults).map String.data) := by
  refine ⟨?_, ?_, rfl, ?_⟩
  · obtain ⟨R, hl, hp, -, -⟩ := foldl_loopBody_appends ((loopInputs env w).map fun x => x.1)
      (loopInputs env w) (initialState seen [Event.init true, Event.getSeenJobs true])
    unfold loopState forOf
    rw [hp, ← loopInputs_map_val env w]
    simp [initialState, hl]
  · intro i c hc
    exact result_label seen [Event.init true, Event.getSeenJobs true] (loopInputs env w) i
      { ref := i, val := c } (w.fetchJobs i c.url) (w.random i)
      (loopInputs_getElem? env w i c hc)
  · unfold fullMessage
    exact intercalate_data "\n" _

theorem append_ne_empty_right (a b : String) (h : b ≠ "") : a ++ b ≠ "" := by
  intro heq
  apply h
  have := congrArg String.data heq
  rw [String.data_append] at this
  apply String.ext
  exact (List.append_eq_nil.1 this).2

/-- C18, amended.  An errored result contributes its error-marker line
followed by one empty line and nothing else (the common separator is not
added for it); every result, errored or not, contributes non-empty lines
followed by exactly one empty line. -/
theorem one_blank_line_per_block (res : PlaceResult) :
    (∀ place, resultLines (PlaceResult.error place) = ["*" ++ place ++ "* - ERROR NAUKRI ⚠️", ""]) ∧
    ∃ body, resultLines res = body ++ [""] ∧ body ≠ [] ∧ ∀ line ∈ body, line ≠ "" := by
  refine ⟨fun _ => rfl, ?_⟩
  cases res with
  | error place =>
    refine ⟨["*" ++ place ++ "* - ERROR NAUKRI ⚠️"], rfl, by simp, ?_⟩
    intro line hline
    simp only [List.mem_singleton] at hline
    subst hline
    exact append_ne_empty_right _ _ (by decide)
  | ok place jobs =>
    by_cases hj : jobs.length > 0
    · refine ⟨["*" ++ place ++ "* -"] ++ jobs.enum.map fun p =>
          toString (p.1 + 1) ++ ") [" ++ p.2.title ++ "](" ++ p.2.url ++ ")",
        by simp [resultLines, hj], by simp, ?_⟩
      intro line hline
      rcases List.mem_append.1 hline with h | h
      · simp only [List.mem_singleton] at h
        subst h
        exact append_ne_empty_right _ _ (by decide)
      · obtain ⟨p, -, rfl⟩ := List.mem_map.1 h
        exact append_ne_empty_right _ _ (by decide)
    · refine ⟨["*" ++ place ++ "* - No New Jobs Found 📉"], by simp [resultLines, hj],
        by simp, ?_⟩
      intro line hline
      simp only [List.mem_singleton] at hline
      subst hline
      exact append_ne_empty_right _ _ (by decide)

/-- The block of an errored result for place `P` is the marker and one
empty line, not two; in a message it is followed directly by the block of
the next result. -/
theorem error_marker_followed_by_one_blank :
    resultLines (PlaceResult.error "P") = ["*P* - ERROR NAUKRI ⚠️", ""] ∧
    resultLines (PlaceResult.error "P") ≠ ["*P* - ERROR NAUKRI ⚠️", "", ""] ∧
    messageLines "now" [] [PlaceResult.error "P", PlaceResult.ok "Q" []] =
      [ "✅ *Naukri Job Alert* - No new jobs found", "⏰ _now_", "",
        "*P* - ERROR NAUKRI ⚠️", "",
        "*Q* - No New Jobs Found 📉", "" ] := by
  decide

theorem digitChar_isDigit (n : Nat) (h : n < 10) : (Nat.digitChar n).isDigit = true := by
  interval_cases n <;> rfl

/-- The decimal digits of a number: a non-empty run of digit characters in
front of the accumulator. -/
theorem toDigitsCore_digits (fuel n : Nat) (ds : List Char) :
    ∃ pre, Nat.toDigitsCore 10 fuel n ds = pre ++ ds ∧ (∀ c ∈ pre, c.isDigit = true) ∧
      (0 < fuel → pre ≠ []) := by
  induction fuel generalizing n ds with
  | zero => exact ⟨[], by simp [Nat.toDigitsCore], by simp, by simp⟩
  | succ fuel ih =>
    have hd : (Nat.digitChar (n % 10)).isDigit = true :=
      digitChar_isDigit _ (Nat.mod_lt _ (by decide))
    unfold Nat.toDigitsCore
    simp only
    split
    · exact ⟨[Nat.digitChar (n % 10)], rfl, by simpa using hd, by simp⟩
    · obtain ⟨pre, hpre, hdig, -⟩ := ih (n / 10) (Nat.digitChar (n % 10) :: ds)
      refine ⟨pre ++ [Nat.digitChar (n % 10)], by rw [hpre]; simp, ?_, by simp⟩
      intro c hc
      rcases List.mem_append.1 hc with h | h
      · exact hdig c h
      · simp only [List.mem_singleton] at h
        subst h
        exact hd

theorem startsWithDigit_toString (n : Nat) : startsWithDigit (toString n) = true := by
  obtain ⟨pre, hpre, hdig, hne⟩ := toDigitsCore_digits (n + 1) n []
  have hdata : (toString n).data = pre := by
    show (Nat.repr n).data = pre
    unfold Nat.repr Nat.toDigits
    rw [hpre]
    simp [List.asString]
  unfold startsWithDigit
  rw [hdata]
  cases pre with
  | nil => exact absurd rfl (hne (Nat.succ_pos _))
  | cons c cs => exact hdig c (List.mem_cons_self _ _)

theorem startsWithDigit_append (a b : String) (h : startsWithDigit a = true) :
    startsWithDigit (a ++ b) = true := by
  unfold startsWithDigit at h ⊢
  rw [String.data_append]
  cases ha : a.data with
  | nil => rw [ha] at h; simp at h
  | cons c cs => rw [ha] at h; simpa using h

theorem startsWithDigit_append_of_head (a b : String) (c : Char) (cs : List Char)
    (h : a.data = c :: cs) : startsWithDigit (a ++ b) = c.isDigit := by
  unfold startsWithDigit
  rw [String.data_append, h]
  rfl

/-- The numbered posting lines of a block are as many as its postings. -/
theorem countP_startsWithDigit_resultLines (res : PlaceResult) :
    (resultLines res).countP startsWithDigit = res.jobs.length := by
  cases res with
  | error place =>
    have h1 : startsWithDigit ("*" ++ place ++ "* - ERROR NAUKRI ⚠️") = false := by
      rw [String.append_assoc]
      exact startsWithDigit_append_of_head "*" _ '*' [] rfl
    simp [resultLines, List.countP_cons, h1, PlaceResult.jobs, startsWithDigit]
  | ok place jobs =>
    by_cases hj : jobs.length > 0
    · have h1 : startsWithDigit ("*" ++ place ++ "* -") = false := by
        rw [String.append_assoc]
        exact startsWithDigit_append_of_head "*" _ '*' [] rfl
      have h2 : (jobs.enum.map fun p =>
          toString (p.1 + 1) ++ ") [" ++ p.2.title ++ "](" ++ p.2.url ++ ")").countP
            startsWithDigit = jobs.length := by
        rw [List.countP_eq_length.2]
        · simp
        · intro line hline
          obtain ⟨p, -, rfl⟩ := List.mem_map.1 hline
          exact startsWithDigit_append _ _ (startsWithDigit_append _ _
            (startsWithDigit_append _ _ (startsWithDigit_append _ _
              (startsWithDigit_append _ _ (startsWithDigit_toString _)))))
      simp only [resultLines, hj, if_true, List.countP_append, List.countP_cons,
        List.countP_nil, h1, h2, PlaceResult.jobs]
      simp [startsWithDigit]
    · have h1 : startsWithDigit ("*" ++ place ++ "* - No New Jobs Found 📉") = false := by
        rw [String.append_assoc]
        exact startsWithDigit_append_of_head "*" _ '*' [] rfl
      have h0 : jobs = [] := by
        cases jobs with
        | nil => rfl
        | cons a l => simp at hj
      simp [resultLines, List.countP_cons, h1, PlaceResult.jobs, startsWithDigit, h0]

theorem countP_startsWithDigit_flatMap (results : List PlaceResult) :
    (results.flatMap resultLines).countP startsWithDigit
      = (results.flatMap PlaceResult.jobs).length := by
  induction results with
  | nil => rfl
  | cons res rest ih =>
    simp only [List.flatMap_cons, List.countP_append, List.length_append, ih,
      countP_startsWithDigit_resultLines]

theorem head?_append_of_head (a b : String) (c : Char) (cs : List Char)
    (h : a.data = c :: cs) : (a ++ b).data.head? = some c := by
  rw [String.data_append, h]
  rfl

/-- The alert line is never the `no new jobs` line. -/
theorem alert_line_ne (x : String) :
    "🔔 *Naukri Job Alert* - " ++ x ++ " new job(s) found!"
      ≠ "✅ *Naukri Job Alert* - No new jobs found" := by
  intro h
  have h1 := head?_append_of_head "🔔 *Naukri Job Alert* - " (x ++ " new job(s) found!") '🔔'
    " *Naukri Job Alert* - ".data rfl
  rw [← String.append_assoc, h] at h1
  exact absurd h1 (by decide)

/-- The numbered posting lines of a message are as many as the postings its
results list. -/
theorem countP_startsWithDigit_messageLines (now : String) (allNewJobs : List Job)
    (placeResults : List PlaceResult) :
    (messageLines now allNewJobs placeResults).countP startsWithDigit
      = (placeResults.flatMap PlaceResult.jobs).length := by
  have hhead : startsWithDigit (if allNewJobs.length > 0 then
        "🔔 *Naukri Job Alert* - " ++ toString allNewJobs.length ++ " new job(s) found!"
      else "✅ *Naukri Job Alert* - No new jobs found") = false := by
    split
    · rw [String.append_assoc]
      exact startsWithDigit_append_of_head "🔔 *Naukri Job Alert* - " _ '🔔'
        " *Naukri Job Alert* - ".data rfl
    · rfl
  have hts : startsWithDigit ("⏰ _" ++ now ++ "_") = false := by
    rw [String.append_assoc]
    exact startsWithDigit_append_of_head "⏰ _" _ '⏰' " _".data rfl
  have hempty : startsWithDigit "" = false := rfl
  unfold messageLines
  rw [List.countP_append, countP_startsWithDigit_flatMap, List.countP_cons, List.countP_cons,
    List.countP_cons, List.countP_nil, hhead, hts, hempty]
  simp

/-- C19.  After the loop, `allNewJobs` is the concatenation, in target
order, of the job lists of the results.  Hence the number of numbered
posting lines of the message equals the length of `allNewJobs`, which is
the count the header line states when it is positive; and the header is the
line `✅ *Naukri Job Alert* - No new jobs found` exactly when no result
lists a posting. -/
theorem header_count_matches_postings (seen : List SeenRecord) (tr : List Event)
    (inputs : List (Obj SearchConfig × Except String (List FetchedJob) × ℚ)) (now : String) :
    (forOf inputs (initialState seen tr)).allNewJobs
      = (forOf inputs (initialState seen tr)).placeResults.flatMap PlaceResult.jobs ∧
    (messageLines now (forOf inputs (initialState seen tr)).allNewJobs
        (forOf inputs (initialState seen tr)).placeResults).countP startsWithDigit
      = (forOf inputs (initialState seen tr)).allNewJobs.length ∧
    (0 < (forOf inputs (initialState seen tr)).allNewJobs.length →
      (messageLines now (forOf inputs (initialState seen tr)).allNewJobs
          (forOf inputs (initialState seen tr)).placeResults)[0]? =
        some ("🔔 *Naukri Job Alert* - " ++
          toString ((messageLines now (forOf inputs (initialState seen tr)).allNewJobs
            (forOf inputs (initialState seen tr)).placeResults).countP startsWithDigit) ++
          " new job(s) found!")) ∧
    ((messageLines now (forOf inputs (initialState seen tr)).allNewJobs
        (forOf inputs (initialState seen tr)).placeResults)[0]? =
        some "✅ *Naukri Job Alert* - No new jobs found" ↔
      ∀ res ∈ (forOf inputs (initialState seen tr)).placeResults, res.jobs = []) := by
  obtain ⟨R, -, hp, ha, -⟩ := foldl_loopBody_appends (inputs.map fun x => x.1) inputs
    (initialState seen tr)
  have hp' : (forOf inputs (initialState seen tr)).placeResults = R := by
    unfold forOf; rw [hp]; simp [initialState]
  have ha' : (forOf inputs (initialState seen tr)).allNewJobs = R.flatMap PlaceResult.jobs := by
    unfold forOf; rw [ha]; simp [initialState]
  have hflat : (forOf inputs (initialState seen tr)).allNewJobs
      = (forOf inputs (initialState seen tr)).placeResults.flatMap PlaceResult.jobs := by
    rw [ha', hp']
  have hcount : (messageLines now (forOf inputs (initialState seen tr)).allNewJobs
        (forOf inputs (initialState seen tr)).placeResults).countP startsWithDigit
      = (forOf inputs (initialState seen tr)).allNewJobs.length := by
    rw [countP_startsWithDigit_messageLines, ← hflat]
  have hline : (messageLines now (forOf inputs (initialState seen tr)).allNewJobs
      (forOf inputs (initialState seen tr)).placeResults)[0]? =
      some (if (forOf inputs (initialState seen tr)).allNewJobs.length > 0 then
        "🔔 *Naukri Job Alert* - " ++
          toString (forOf inputs (initialState seen tr)).allNewJobs.length ++
          " new job(s) found!"
      else "✅ *Naukri Job Alert* - No new jobs found") := by
    simp [messageLines]
  refine ⟨hflat, hcount, ?_, ?_⟩
  · intro hpos
    rw [hcount, hline, if_pos hpos]
  · have hall : (∀ res ∈ (forOf inputs (initialState seen tr)).placeResults, res.jobs = []) ↔
        (forOf inputs (initialState seen tr)).allNewJobs = [] := by
      rw [hflat]
      simp [List.flatMap_eq_nil_iff]
    rw [hline, hall]
    by_cases hz : (forOf inputs (initialState seen tr)).allNewJobs = []
    · simp [hz]
    · have hpos : (forOf inputs (initialState seen tr)).allNewJobs.length > 0 :=
        List.length_pos.2 hz
      rw [if_pos hpos]
      constructor
      · intro h
        exact absurd (Option.some.inj h) (alert_line_ne _)
      · intro h; exact absurd h hz

/-- C17.  When a credential is missing (unset or empty) or the store fails
to initialise, the run fetches nothing, sends nothing and does not call
`addSeenJobs`.  With a missing credential it makes no call at all, the
store included, and `main` returns; with both credentials set and a failing
store initialisation the only calls are `init` and `process.exit(1)`, and
the process ends with exit status 1. -/
theorem abort_before_any_fetch (env : Env) (w : World) :
    ((truthy env.TELEGRAM_BOT_TOKEN = false ∨ truthy env.TELEGRAM_CHAT_ID = false ∨
        ∃ e, w.init = Except.error e) →
      ∀ ev ∈ (main env w).trace,
        ev.fetchedUrl = none ∧ ev.isSend = false ∧ ev.isAddSeenJobs = false) ∧
    ((truthy env.TELEGRAM_BOT_TOKEN = false ∨ truthy env.TELEGRAM_CHAT_ID = false) →
      (main env w).trace = [] ∧ (main env w).completion = Completion.returned) ∧
    (truthy env.TELEGRAM_BOT_TOKEN = true → truthy env.TELEGRAM_CHAT_ID = true →
      ∀ e, w.init = Except.error e →
        (main env w).trace = [Event.init false, Event.processExit 1] ∧
        (main env w).completion = Completion.exited 1) := by
  have hcred : (truthy env.TELEGRAM_BOT_TOKEN = false ∨ truthy env.TELEGRAM_CHAT_ID = false) →
      (main env w).trace = [] ∧ (main env w).completion = Completion.returned := by
    intro h
    unfold main
    rcases h with h | h <;> simp [h]
  have hinit : truthy env.TELEGRAM_BOT_TOKEN = true → truthy env.TELEGRAM_CHAT_ID = true →
      ∀ e, w.init = Except.error e →
        (main env w).trace = [Event.init false, Event.processExit 1] ∧
        (main env w).completion = Completion.exited 1 := by
    intro h1 h2 e he
    unfold main
    simp [h1, h2, he]
  refine ⟨?_, hcred, hinit⟩
  intro h ev hev
  by_cases h1 : truthy env.TELEGRAM_BOT_TOKEN = true
  · by_cases h2 : truthy env.TELEGRAM_CHAT_ID = true
    · rcases h with h | h | ⟨e, he⟩
      · rw [h1] at h; cases h
      · rw [h2] at h; cases h
      · rw [(hinit h1 h2 e he).1] at hev
        simp only [List.mem_cons, List.mem_singleton, List.not_mem_nil, or_false] at hev
        rcases hev with rfl | rfl <;>
          simp [Event.fetchedUrl, Event.isSend, Event.isAddSeenJobs]
    · rw [(hcred (Or.inr (by simpa using h2))).1] at hev
      simp at hev
  · rw [(hcred (Or.inl (by simpa using h1))).1] at hev
    simp at hev

/-- The extraction keeps, in document order, the title anchors whose
trimmed text and whose `href` are both non-empty. -/
theorem extractJobs_eq (rows : List RowElement) :
    extractJobs rows =
      ((rows.filterMap fun element => element.titleElement).map fun a =>
          ({ title := jsTrim a.1, url := a.2 } : FetchedJob)).filter
        fun j => j.title != "" && j.url != "" := by
  unfold extractJobs
  induction rows with
  | nil => rfl
  | cons r rows ih =>
    simp only [List.filterMap_cons]
    cases hr : r.titleElement with
    | none => simp only [hr]; exact ih
    | some a =>
      obtain ⟨innerText, href⟩ := a
      simp only [hr, List.map_cons, List.filter_cons]
      by_cases hc : (jsTrim innerText != "" && href != "") = true
      · rw [if_pos hc, if_pos hc, ih]
      · rw [if_neg hc, if_neg hc, ih]

theorem extractJobs_nonempty (rows : List RowElement) :
    ∀ j ∈ extractJobs rows, j.title ≠ "" ∧ j.url ≠ "" ∧ ∃ innerText, j.title = jsTrim innerText := by
  intro j hj
  rw [extractJobs_eq, List.mem_filter, List.mem_map] at hj
  obtain ⟨⟨a, -, rfl⟩, hne⟩ := hj
  simp only [Bool.and_eq_true, bne_iff_ne, ne_eq] at hne
  exact ⟨hne.1, hne.2, a.1, rfl⟩

/-- C20, amended.  With the browser launched, the page opened, the user
agent set and the navigation done, `fetchJobs` returns the empty list when
the job-list selector does not appear, provided closing the browser
succeeds; the loop then records a successful result without postings.
`fetchJobs` fails exactly when launching the browser, opening the page,
setting the user agent, navigating, extracting (once the selector
appeared) or closing the browser fails, and its error is the error of one
of these calls.  Every posting it returns has a non-empty trimmed title and
a non-empty url, and the postings are the title anchors of the rows, in
document order, whose trimmed text and `href` are non-empty. -/
theorem fetchJobs_outcome (b : Browser) (searchUrl : String) :
    (resolved b.launch = true → resolved b.newPage = true → resolved b.setUserAgent = true →
      resolved (b.goto searchUrl) = true → resolved b.waitForSelector = false →
      resolved b.close = true →
        fetchJobs b searchUrl = Except.ok [] ∧
        ∀ (st : LoopState) (c : SearchConfig),
          (fetchStep st c (fetchJobs b searchUrl)).placeResults =
            st.placeResults ++ [PlaceResult.ok (orElse c.place "Naukri") []]) ∧
    (resolved (fetchJobs b searchUrl) = false ↔
      resolved b.launch = false ∨ resolved b.newPage = false ∨
      resolved b.setUserAgent = false ∨ resolved (b.goto searchUrl) = false ∨
      (resolved b.waitForSelector = true ∧ resolved b.evaluate = false) ∨
      resolved b.close = false) ∧
    (∀ e, fetchJobs b searchUrl = Except.error e →
      b.launch = Except.error e ∨ b.newPage = Except.error e ∨
      b.setUserAgent = Except.error e ∨ b.goto searchUrl = Except.error e ∨
      b.evaluate = Except.error e ∨ b.close = Except.error e) ∧
    (∀ jobs, fetchJobs b searchUrl = Except.ok jobs →
      (∀ j ∈ jobs, j.title ≠ "" ∧ j.url ≠ "" ∧ ∃ innerText, j.title = jsTrim innerText) ∧
      (jobs = [] ∨ ∃ rows, b.evaluate = Except.ok rows ∧
        jobs = ((rows.filterMap fun element => element.titleElement).map fun a =>
            ({ title := jsTrim a.1, url := a.2 } : FetchedJob)).filter
          fun j => j.title != "" && j.url != "")) := by
  refine ⟨?_, ?_, ?_, ?_⟩
  · intro h1 h2 h3 h4 h5 h6
    have hf : fetchJobs b searchUrl = Except.ok [] := by
      unfold fetchJobs fetchJobsTry
      cases hl : b.launch <;> cases hn : b.newPage <;> cases hu : b.setUserAgent <;>
        cases hg : b.goto searchUrl <;> cases hw : b.waitForSelector <;>
        cases hc : b.close <;> simp_all [resolved]
    refine ⟨hf, ?_⟩
    intro st c
    rw [hf]
    simp [fetchStep]
  · unfold fetchJobs fetchJobsTry
    cases hl : b.launch <;> cases hn : b.newPage <;> cases hu : b.setUserAgent <;>
      cases hg : b.goto searchUrl <;> cases hw : b.waitForSelector <;>
      cases he : b.evaluate <;> cases hc : b.close <;> simp [resolved]
  · intro e
    unfold fetchJobs fetchJobsTry
    cases hl : b.launch <;> cases hn : b.newPage <;> cases hu : b.setUserAgent <;>
      cases hg : b.goto searchUrl <;> cases hw : b.waitForSelector <;>
      cases he : b.evaluate <;> cases hc : b.close <;> simp <;> intro h <;> simp [h]
  · intro jobs
    unfold fetchJobs fetchJobsTry
    cases hl : b.launch <;> cases hn : b.newPage <;> cases hu : b.setUserAgent <;>
      cases hg : b.goto searchUrl <;> cases hw : b.waitForSelector <;>
      cases he : b.evaluate <;> cases hc : b.close <;> simp only [reduceCtorEq, false_implies,
        Except.ok.injEq] <;> intro h <;> subst h
    all_goals first
      | exact ⟨by simp, Or.inl rfl⟩
      | exact ⟨extractJobs_nonempty _, Or.inr ⟨_, rfl, extractJobs_eq _⟩⟩

/-- The job list never appears, launching, opening the page and navigating
succeed, and nothing is extracted; closing the browser fails, and so does
`fetchJobs`, for which the loop records an error result.  Likewise
`fetchJobs` fails when only setting the user agent fails. -/
theorem fetchJobs_fails_when_close_fails :
    resolved closeFailsBrowser.launch = true ∧ resolved closeFailsBrowser.newPage = true ∧
    resolved (closeFailsBrowser.goto "u") = true ∧
    resolved closeFailsBrowser.waitForSelector = false ∧
    fetchJobs closeFailsBrowser "u" = Except.error "closed" ∧
    (fetchStep (initialState [] []) { url := "u", place := none }
        (fetchJobs closeFailsBrowser "u")).placeResults = [PlaceResult.error "Unknown"] ∧
    resolved userAgentFailsBrowser.launch = true ∧
    resolved userAgentFailsBrowser.newPage = true ∧
    resolved (userAgentFailsBrowser.goto "u") = true ∧
    resolved userAgentFailsBrowser.evaluate = true ∧
    fetchJobs userAgentFailsBrowser "u" = Except.error "detached" :=
  ⟨rfl, rfl, rfl, rfl, rfl, rfl, rfl, rfl, rfl, rfl, rfl⟩

/-- A page with three rows of which one is a posting with a title. -/
theorem fetchJobs_demo :
    fetchJobs demoBrowser "u" = Except.ok [{ title := "Dev", url := "https://n/1" }] :=
  rfl

/-- Rounding to the nearest integer does not cross an integer. -/
theorem roundHalfEven_le (x : ℚ) (k : Int) (h : x ≤ k) : roundHalfEven x ≤ k := by
  have hf : Rat.floor x ≤ k := by
    have h1 : ((Rat.floor x : Int) : ℚ) ≤ x := Rat.le_floor.1 (le_refl _)
    exact_mod_cast h1.trans h
  unfold roundHalfEven
  split
  · exact hf
  · rename_i hd
    have hlt : Rat.floor x < k := by
      rcases lt_or_eq_of_le hf with h' | h'
      · exact h'
      · exfalso
        apply hd
        rw [h']
        linarith
    split
    · omega
    · split
      · exact hf
      · omega

theorem le_roundHalfEven (x : ℚ) (k : Int) (h : (k : ℚ) ≤ x) : k ≤ roundHalfEven x := by
  have hf : k ≤ Rat.floor x := Rat.le_floor.2 h
  unfold roundHalfEven
  split
  · exact hf
  · split
    · omega
    · split
      · exact hf
      · omega

/-- Below the midpoint the rounding goes down. -/
theorem roundHalfEven_le_of_lt_half (x : ℚ) (k : Int) (h : x < k + 1 / 2) :
    roundHalfEven x ≤ k := by
  have h1 : ((Rat.floor x : Int) : ℚ) ≤ x := Rat.le_floor.1 (le_refl _)
  have hf : Rat.floor x ≤ k := by
    have : ((Rat.floor x : Int) : ℚ) < k + 1 := by linarith
    have : Rat.floor x < k + 1 := by exact_mod_cast this
    omega
  unfold roundHalfEven
  split
  · exact hf
  · rename_i hd
    have hlt : Rat.floor x < k := by
      rcases lt_or_eq_of_le hf with h' | h'
      · exact h'
      · exfalso
        apply hd
        rw [h']
        linarith
    split
    · omega
    · split
      · exact hf
      · omega

/-- The exponent used for a positive value below `2 ^ (E + 1)`. -/
theorem exponent_le (x : ℚ) (E : Int) (hx : 0 < x) (hlt : x < 2 ^ (E + 1)) (hE : -1022 ≤ E) :
    max (Int.log 2 |x|) (-1022) ≤ E := by
  rw [abs_of_pos hx]
  have h2 : x < ((2 : ℕ) : ℚ) ^ (E + 1) := by simpa using hlt
  have := (Int.lt_zpow_iff_log_lt (by norm_num : 1 < 2) hx).1 h2
  exact max_le (by omega) hE

theorem le_exponent (x : ℚ) (E : Int) (hx : 0 < x) (hle : 2 ^ E ≤ x) :
    E ≤ max (Int.log 2 |x|) (-1022) := by
  rw [abs_of_pos hx]
  have h2 : ((2 : ℕ) : ℚ) ^ E ≤ x := by simpa using hle
  exact le_max_of_le_left ((Int.zpow_le_iff_le_log (by norm_num : 1 < 2) hx).1 h2)

/-- A multiple of `2 ^ (E - 52)` is a multiple of every finer unit. -/
theorem grid_refine (e E m : Int) (h : e ≤ E) :
    ∃ m' : Int, (m : ℚ) * 2 ^ (E - 52) = (m' : ℚ) * 2 ^ (e - 52) := by
  refine ⟨m * 2 ^ (E - e).toNat, ?_⟩
  have hn : ((E - e).toNat : Int) = E - e := Int.toNat_of_nonneg (by omega)
  have hpow : (2 : ℚ) ^ (E - 52) = 2 ^ ((E - e).toNat : Int) * 2 ^ (e - 52) := by
    rw [← zpow_add₀ (by norm_num : (2 : ℚ) ≠ 0), hn]
    congr 1
    omega
  rw [hpow, zpow_natCast]
  push_cast
  ring

/-- Rounding to a double does not cross a value of the grid in use. -/
theorem roundDouble_le_grid (x : ℚ) (E m : Int) (hx : 0 < x)
    (hE : max (Int.log 2 |x|) (-1022) ≤ E) (h : x ≤ (m : ℚ) * 2 ^ (E - 52)) :
    roundDouble x ≤ (m : ℚ) * 2 ^ (E - 52) := by
  obtain ⟨m', hm'⟩ := grid_refine _ E m hE
  have hq : (0 : ℚ) < 2 ^ (max (Int.log 2 |x|) (-1022) - 52) := zpow_pos (by norm_num) _
  unfold roundDouble
  rw [if_neg (ne_of_gt hx), hm']
  rw [hm'] at h
  apply mul_le_mul_of_nonneg_right _ (le_of_lt hq)
  have : roundHalfEven (x / 2 ^ (max (Int.log 2 |x|) (-1022) - 52)) ≤ m' :=
    roundHalfEven_le _ _ ((div_le_iff₀ hq).2 h)
  exact_mod_cast this

theorem le_roundDouble_grid (x : ℚ) (E m : Int) (hx : 0 < x)
    (hE : max (Int.log 2 |x|) (-1022) ≤ E) (h : (m : ℚ) * 2 ^ (E - 52) ≤ x) :
    (m : ℚ) * 2 ^ (E - 52) ≤ roundDouble x := by
  obtain ⟨m', hm'⟩ := grid_refine _ E m hE
  have hq : (0 : ℚ) < 2 ^ (max (Int.log 2 |x|) (-1022) - 52) := zpow_pos (by norm_num) _
  unfold roundDouble
  rw [if_neg (ne_of_gt hx), hm']
  rw [hm'] at h
  apply mul_le_mul_of_nonneg_right _ (le_of_lt hq)
  have : m' ≤ roundHalfEven (x / 2 ^ (max (Int.log 2 |x|) (-1022) - 52)) :=
    le_roundHalfEven _ _ ((le_div_iff₀ hq).2 h)
  exact_mod_cast this

/-- A value of the grid in use is not changed by the rounding. -/
theorem roundDouble_eq_of_grid (x : ℚ) (E m : Int) (hx : 0 < x)
    (hE : max (Int.log 2 |x|) (-1022) ≤ E) (h : x = (m : ℚ) * 2 ^ (E - 52)) :
    roundDouble x = x := by
  apply le_antisymm
  · have := roundDouble_le_grid x E m hx hE (le_of_eq h)
    rwa [← h] at this
  · have := le_roundDouble_grid x E m hx hE (le_of_eq h.symm)
    rwa [← h] at this

/-- A double below one is at most the largest double below one. -/
theorem double_lt_one (r : ℚ) (hd : roundDouble r = r) (h1 : r < 1) :
    r ≤ 1 - 1 / 2 ^ 53 := by
  by_cases hhalf : r ≤ 1 / 2
  · have : (1 : ℚ) / 2 ≤ 1 - 1 / 2 ^ 53 := by norm_num
    linarith
  · have hpos : 0 < r := by linarith
    have he1 : max (Int.log 2 |r|) (-1022) ≤ -1 :=
      exponent_le r (-1) hpos (by norm_num; exact h1) (by norm_num)
    have he2 : -1 ≤ max (Int.log 2 |r|) (-1022) :=
      le_exponent r (-1) hpos (by norm_num; linarith)
    have he : max (Int.log 2 |r|) (-1022) = -1 := le_antisymm he1 he2
    unfold roundDouble at hd
    rw [if_neg (ne_of_gt hpos), he] at hd
    have hlt : ((roundHalfEven (r / 2 ^ ((-1 : Int) - 52)) : Int) : ℚ)
        < ((2 ^ 53 : Int) : ℚ) := by
      have : ((roundHalfEven (r / 2 ^ ((-1 : Int) - 52)) : Int) : ℚ) * 2 ^ ((-1 : Int) - 52)
          < 1 := by rw [hd]; exact h1
      norm_num at this ⊢
      linarith
    have hle : roundHalfEven (r / 2 ^ ((-1 : Int) - 52)) ≤ 2 ^ 53 - 1 := by
      have : roundHalfEven (r / 2 ^ ((-1 : Int) - 52)) < 2 ^ 53 := by exact_mod_cast hlt
      omega
    have hle' : ((roundHalfEven (r / 2 ^ ((-1 : Int) - 52)) : Int) : ℚ)
        ≤ ((2 ^ 53 - 1 : Int) : ℚ) := by exact_mod_cast hle
    rw [← hd]
    norm_num at hle' ⊢
    linarith

/-- The rounded product `Math.random() * 10001`. -/
theorem product_bounds (r : ℚ) (h0 : 0 ≤ r) (h1 : r ≤ 1 - 1 / 2 ^ 53) :
    0 ≤ roundDouble (r * (15000 - 5000 + 1)) ∧
    roundDouble (r * (15000 - 5000 + 1)) ≤ 10001 - 1 / 2 ^ 39 := by
  by_cases hz : r * (15000 - 5000 + 1) = 0
  · rw [hz]
    simp only [roundDouble, if_true]
    norm_num
  · have hpos : 0 < r * (15000 - 5000 + 1) := by
      rcases lt_or_eq_of_le (by nlinarith : 0 ≤ r * (15000 - 5000 + 1)) with h | h
      · exact h
      · exact absurd h.symm hz
    have hlt : r * (15000 - 5000 + 1) < 2 ^ ((13 : Int) + 1) := by
      norm_num at h1 ⊢
      linarith
    have he := exponent_le _ 13 hpos hlt (by norm_num)
    constructor
    · have := le_roundDouble_grid _ 13 0 hpos he (by simpa using le_of_lt hpos)
      simpa using this
    · by_cases hsmall : r * (15000 - 5000 + 1) ≤ 8192
      · have := roundDouble_le_grid _ 13 (2 ^ 52) hpos he (by norm_num; linarith)
        norm_num at this ⊢
        linarith
      · have he2 : (13 : Int) ≤ max (Int.log 2 |r * (15000 - 5000 + 1)|) (-1022) :=
          le_exponent _ 13 hpos (by norm_num; linarith)
        have he' : max (Int.log 2 |r * (15000 - 5000 + 1)|) (-1022) = 13 :=
          le_antisymm he he2
        unfold roundDouble
        rw [if_neg hz, he']
        have hr : roundHalfEven (r * (15000 - 5000 + 1) / 2 ^ ((13 : Int) - 52))
            ≤ 10001 * 2 ^ 39 - 1 := by
          apply roundHalfEven_le_of_lt_half
          norm_num at h1 ⊢
          linarith
        have hr' : ((roundHalfEven (r * (15000 - 5000 + 1) / 2 ^ ((13 : Int) - 52)) : Int) : ℚ)
            ≤ ((10001 * 2 ^ 39 - 1 : Int) : ℚ) := by exact_mod_cast hr
        norm_num at hr' ⊢
        linarith

/-- The rounded sum with `5000`. -/
theorem sum_bounds (y : ℚ) (h0 : 0 ≤ y) (h1 : y ≤ 10001 - 1 / 2 ^ 39) :
    5000 ≤ roundDouble (y + 5000) ∧ roundDouble (y + 5000) ≤ 15001 - 1 / 2 ^ 39 := by
  have hpos : 0 < y + 5000 := by linarith
  have hlt : y + 5000 < 2 ^ ((13 : Int) + 1) := by
    norm_num at h1 ⊢
    linarith
  have he := exponent_le _ 13 hpos hlt (by norm_num)
  constructor
  · have := le_roundDouble_grid _ 13 (5000 * 2 ^ 39) hpos he (by norm_num; linarith)
    norm_num at this ⊢
    linarith
  · have := roundDouble_le_grid _ 13 (15001 * 2 ^ 39 - 1) hpos he (by
      norm_num at h1 ⊢
      linarith)
    norm_num at this ⊢
    linarith

theorem floor_bounds (z : ℚ) (lo hi : Int) (h1 : (lo : ℚ) ≤ z) (h2 : z < hi + 1) :
    lo ≤ Rat.floor z ∧ Rat.floor z ≤ hi := by
  refine ⟨Rat.le_floor.2 h1, ?_⟩
  by_contra hc
  have : hi + 1 ≤ Rat.floor z := by omega
  have := Rat.le_floor.1 this
  push_cast at this
  linarith

/-- The delay for a double `r` of the half-open unit interval. -/
theorem randomDelay_bounds (r : ℚ) (hd : roundDouble r = r) (h0 : 0 ≤ r) (h1 : r < 1) :
    5000 ≤ randomDelay r ∧ randomDelay r ≤ 15000 := by
  obtain ⟨hp0, hp1⟩ := product_bounds r h0 (double_lt_one r hd h1)
  obtain ⟨hs0, hs1⟩ := sum_bounds _ hp0 hp1
  unfold randomDelay
  apply floor_bounds
  · push_cast; exact hs0
  · push_cast
    norm_num at hs1 ⊢
    linarith

/-- The delay for a value that is not changed by the two roundings. -/
theorem randomDelay_of_exact (r : ℚ) (hp : roundDouble (r * (15000 - 5000 + 1))
      = r * (15000 - 5000 + 1))
    (hs : roundDouble (r * (15000 - 5000 + 1) + 5000) = r * (15000 - 5000 + 1) + 5000) :
    randomDelay r = Rat.floor (r * (15000 - 5000 + 1) + 5000) := by
  unfold randomDelay
  rw [hp, hs]

/-- C12.  For every value `r` of the random source, a double with
`0 ≤ r < 1`, the pacing delay `Math.floor(r * (15000 - 5000 + 1) + 5000)`,
computed with the roundings of JavaScript numbers, is an integer between
5000 and 15000 inclusive; the same bounds hold for the formula in exact
arithmetic, for every rational `r` with `0 ≤ r < 1`.  Both endpoints are
attained: 5000 for `r = 0` and 15000 for the double `r = 16383 / 16384`.
Hence every delay of a run whose random source yields such values lies in
that interval. -/
theorem pacing_delay_range :
    (∀ r : ℚ, roundDouble r = r → 0 ≤ r → r < 1 →
      5000 ≤ randomDelay r ∧ randomDelay r ≤ 15000) ∧
    (∀ r : ℚ, 0 ≤ r → r < 1 →
      5000 ≤ Rat.floor (r * (15000 - 5000 + 1) + 5000) ∧
      Rat.floor (r * (15000 - 5000 + 1) + 5000) ≤ 15000) ∧
    (roundDouble 0 = 0 ∧ randomDelay 0 = 5000) ∧
    (roundDouble (16383 / 16384) = 16383 / 16384 ∧ (0 : ℚ) ≤ 16383 / 16384 ∧
      (16383 / 16384 : ℚ) < 1 ∧ randomDelay (16383 / 16384) = 15000) ∧
    (∀ (env : Env) (w : World) (seen : List SeenRecord),
      (∀ i, roundDouble (w.random i) = w.random i ∧ 0 ≤ w.random i ∧ w.random i < 1) →
      ∀ d, Event.setTimeout d ∈ (loopState env w seen).trace → 5000 ≤ d ∧ d ≤ 15000) := by
  have hzero : roundDouble 0 = 0 := by simp [roundDouble]
  have hr : roundDouble (16383 / 16384) = 16383 / 16384 := by
    apply roundDouble_eq_of_grid _ (-1) (16383 * 2 ^ 39) (by norm_num)
    · exact exponent_le _ (-1) (by norm_num) (by norm_num) (by norm_num)
    · norm_num
  refine ⟨randomDelay_bounds, ?_, ⟨hzero, ?_⟩, ⟨hr, by norm_num, by norm_num, ?_⟩, ?_⟩
  · intro r h0 h1
    apply floor_bounds
    · push_cast; nlinarith
    · push_cast; nlinarith
  · have h := randomDelay_bounds 0 hzero (le_refl _) (by norm_num)
    have hle : randomDelay 0 ≤ 5000 := by
      unfold randomDelay
      rw [zero_mul, hzero, zero_add]
      have h5 : roundDouble 5000 = 5000 := by
        apply roundDouble_eq_of_grid _ 13 (5000 * 2 ^ 39) (by norm_num)
        · exact exponent_le _ 13 (by norm_num) (by norm_num) (by norm_num)
        · norm_num
      rw [h5]
      exact (floor_bounds 5000 5000 5000 (by norm_num) (by norm_num)).2
    omega
  · have hp : roundDouble ((16383 / 16384 : ℚ) * (15000 - 5000 + 1))
        = (16383 / 16384 : ℚ) * (15000 - 5000 + 1) := by
      apply roundDouble_eq_of_grid _ 13 (163846383 * 2 ^ 25) (by norm_num)
      · exact exponent_le _ 13 (by norm_num) (by norm_num) (by norm_num)
      · norm_num
    have hs : roundDouble ((16383 / 16384 : ℚ) * (15000 - 5000 + 1) + 5000)
        = (16383 / 16384 : ℚ) * (15000 - 5000 + 1) + 5000 := by
      apply roundDouble_eq_of_grid _ 13 (245766383 * 2 ^ 25) (by norm_num)
      · exact exponent_le _ 13 (by norm_num) (by norm_num) (by norm_num)
      · norm_num
    rw [randomDelay_of_exact _ hp hs]
    have := floor_bounds ((16383 / 16384 : ℚ) * (15000 - 5000 + 1) + 5000) 15000 15000
      (by norm_num) (by norm_num)
    omega
  · intro env w seen hw d hd
    rw [loopState_trace_eq] at hd
    rcases List.mem_append.1 hd with h | h
    · simp at h
    · obtain ⟨p, -, hp⟩ := List.mem_flatMap.1 h
      rcases List.mem_cons.1 hp with h' | h'
      · cases h'
      · split at h'
        · simp only [List.mem_singleton, Event.setTimeout.injEq] at h'
          rw [h']
          exact randomDelay_bounds _ (hw p.1).1 (hw p.1).2.1 (hw p.1).2.2
        · simp at h'

end NaukriJobAlert
